import Mathlib

/-!
# Verification of the build backend (`do.py`, `_get_version.py`, `_get_tzinfo.py`)

A shallow embedding of the build backend's core, translated from the Python
source, together with theorems settling the specification claims.

Representation conventions:
* Python strings are modelled as `List Char` (`Str`).
* Archive paths (`PurePosixPath`) are modelled as lists of components
  (`List Str`); such a path can never be absolute, which renders the
  `assert not path.is_absolute()` in the source unfireable.
* Instants (aware datetimes) are modelled as microseconds since the Unix
  epoch (`Int`).  Naive calendar datetimes are modelled by their epoch-second
  image: a 6-tuple of calendar fields corresponds to the integer
  `epochSecs fields`, and `calOfSecs` renders an integer back into the
  6-tuple.  Python's field-lexicographic comparison of datetimes coincides
  with integer comparison of this representation.
* The resolved timezone of the `Wheel` class is modelled as a fixed UTC
  offset in seconds; the DST `fold` disambiguation of `SystemTZ` is modelled
  separately (see the `SysTZ` section below).
-/

set_option synthInstance.maxSize 1000

namespace BuildBackend

/-- Python strings are modelled as lists of characters. -/
abbrev Str := List Char

/-- Shorthand turning a Lean string literal into the model's string type. -/
def str (s : String) : Str := s.data

/-- Models Python `str.casefold` (per-character lowering; on the ASCII names
appearing in this development the two agree). -/
def casefold (s : Str) : Str := s.map Char.toLower

/-- Boolean lexicographic order on modelled strings, the order underlying
Python's comparison of (casefolded) names in `list.sort`. -/
def lexLe : Str → Str → Bool
  | [], _ => true
  | _ :: _, [] => false
  | a :: as, b :: bs => if a = b then lexLe as bs else decide (a < b)

/-! ## Calendar arithmetic

`daysFromCivil` / `civilFromDays` realize the bijection between calendar
dates and day numbers (proleptic Gregorian, epoch 1970-01-01), used to
render the epoch-second representation of naive datetimes as 6-tuples. -/

/-- Calendar fields `(year, month, day, hour, minute, second)`. -/
abbrev Cal6 := Int × Int × Int × Int × Int × Int

/-- Days since 1970-01-01 of a calendar date. -/
def daysFromCivil (y m d : Int) : Int :=
  let y' := if m ≤ 2 then y - 1 else y
  let era := y'.fdiv 400
  let yoe := y' - era * 400
  let mp := if m > 2 then m - 3 else m + 9
  let doy := (153 * mp + 2).fdiv 5 + d - 1
  let doe := yoe * 365 + yoe.fdiv 4 - yoe.fdiv 100 + doy
  era * 146097 + doe - 719468

/-- Calendar date of a day number (days since 1970-01-01). -/
def civilFromDays (z0 : Int) : Int × Int × Int :=
  let z := z0 + 719468
  let era := z.fdiv 146097
  let doe := z - era * 146097
  let yoe := (doe - doe.fdiv 1460 + doe.fdiv 36524 - doe.fdiv 146096).fdiv 365
  let y := yoe + era * 400
  let doy := doe - (365 * yoe + yoe.fdiv 4 - yoe.fdiv 100)
  let mp := (5 * doy + 2).fdiv 153
  let d := doy - (153 * mp + 2).fdiv 5 + 1
  let m := mp + (if mp < 10 then 3 else -9)
  ((if m ≤ 2 then y + 1 else y), m, d)

/-- Epoch seconds of a naive calendar datetime. -/
def epochSecs (c : Cal6) : Int :=
  86400 * daysFromCivil c.1 c.2.1 c.2.2.1
    + 3600 * c.2.2.2.1 + 60 * c.2.2.2.2.1 + c.2.2.2.2.2

/-- Naive calendar datetime of an epoch-second count. -/
def calOfSecs (t : Int) : Cal6 :=
  let days := t.fdiv 86400
  let rem := t.fmod 86400
  let ymd := civilFromDays days
  (ymd.1, ymd.2.1, ymd.2.2, rem.fdiv 3600, (rem.fmod 3600).fdiv 60, rem.fmod 60)

/-! ## `Wheel.make_zipinfo` (src/do.py lines 143–203) -/

/-- `stat.S_IFDIR`. -/
def S_IFDIR : Nat := 0o040000
/-- `stat.S_IFREG`. -/
def S_IFREG : Nat := 0o100000
/-- `stat.S_IFMT`. -/
def S_IFMT (m : Nat) : Nat := m &&& 0o170000
/-- `stat.S_ISDIR`. -/
def S_ISDIR (m : Nat) : Bool := S_IFMT m == S_IFDIR

/-- The state of a `Wheel` relevant to timestamp handling: the
`_strict_timestamps` flag and the resolved timezone, modelled as a fixed
UTC offset in seconds. -/
structure WheelCfg where
  strict : Bool
  tzSec : Int
deriving DecidableEq, Repr

/-- `Wheel.__init__` passes `strict_timestamps=False`: relaxed mode is the
default. -/
def defaultStrictTimestamps : Bool := false

/-- The instant (µs) of `self.__min_dt`: naive local 1980-01-01T00:00:00
interpreted in the resolved zone. -/
def minInstant (w : WheelCfg) : Int :=
  epochSecs (1980, 1, 1, 0, 0, 0) * 1000000 - w.tzSec * 1000000

/-- The instant (µs) of `self.__max_dt`: naive local
2107-12-31T23:59:59.999999 interpreted in the resolved zone. -/
def maxInstant (w : WheelCfg) : Int :=
  epochSecs (2107, 12, 31, 23, 59, 59) * 1000000 + 999999 - w.tzSec * 1000000

/-- The `dt` argument of `make_zipinfo`: a POSIX timestamp (µs), a bare
calendar tuple, or absent. -/
inductive DTArg where
  | timestamp (micros : Int)
  | tup (c : Cal6)
  | noneArg
deriving DecidableEq, Repr

/-- The fields of a `zipfile.ZipInfo` that `make_zipinfo` sets.  `date_time`
is the naive-local-seconds representation of the archived 6-tuple
(render with `calOfSecs`). -/
structure ZInfo where
  filename : Str
  date_time : Int
  create_system : Nat
  external_attr : Nat
  compress : Bool
  crc : Option Nat
deriving DecidableEq, Repr

/-- `PurePosixPath.as_posix`: components joined with `/`; the empty path
renders as `.`. -/
def joinPath (parts : List Str) : Str :=
  if parts = [] then str "." else List.intercalate (str "/") parts

/-- Zero-padded decimal rendering of a (nonnegative) integer. -/
def padNum (width : Nat) (n : Int) : Str :=
  let s := (Nat.repr n.toNat).data
  List.replicate (width - s.length) '0' ++ s

/-- `str()` of an aware datetime at the resolved fixed offset, as interpolated
into the strict-mode error messages. -/
def fmtLocal (w : WheelCfg) (instMicros : Int) : Str :=
  let c := calOfSecs ((instMicros + w.tzSec * 1000000).fdiv 1000000)
  let off := w.tzSec
  padNum 4 c.1 ++ str "-" ++ padNum 2 c.2.1 ++ str "-" ++ padNum 2 c.2.2.1
    ++ str " " ++ padNum 2 c.2.2.2.1 ++ str ":" ++ padNum 2 c.2.2.2.2.1
    ++ str ":" ++ padNum 2 c.2.2.2.2.2
    ++ (if off < 0 then str "-" else str "+")
    ++ padNum 2 (|off|.fdiv 3600) ++ str ":" ++ padNum 2 ((|off|.fmod 3600).fdiv 60)

/-- The instant (µs) that `make_zipinfo` derives from its `dt` argument
before clamping: `DateTime.fromtimestamp(dt, tz=UTC)` for numbers, else a
naive datetime (the given tuple, or `(1980, 1, 1)` when absent)
interpreted in the resolved zone by `astimezone`. -/
def instOfDTArg (w : WheelCfg) (dt : DTArg) : Int :=
  match dt with
  | .timestamp us => us
  | .tup c => epochSecs c * 1000000 - w.tzSec * 1000000
  | .noneArg => epochSecs (1980, 1, 1, 0, 0, 0) * 1000000 - w.tzSec * 1000000

/-- The part of `Wheel.make_zipinfo` after the timestamp clamp (src/do.py
lines 178–203): permission/type word, DOS attribute byte, and the assembled
`ZipInfo`.  `mode &= ~0o111` / `mode &= ~0o222` are rendered as conjunction
with the complementary mask inside the 12 mode bits. -/
def make_zipinfo_finish (w : WheelCfg) (typ : Nat) (path : List Str) (inst : Int)
    (traversable executable writable : Bool) : Except Str ZInfo :=
  let mode := if S_ISDIR typ then 0o2775 else 0o775
  let mode := if (if S_ISDIR typ then traversable else executable) then mode else mode &&& 0o7666
  let mode := if writable then mode else mode &&& 0o7555
  let dos_attr := if S_ISDIR typ then 0x10 else 0
  let dos_attr := if writable then dos_attr else dos_attr ||| 1
  let dos_attr := if path.any (fun part => part.head? = some '.') then dos_attr ||| 2 else dos_attr
  let fname := joinPath path ++ (if S_ISDIR typ then str "/" else [])
  let dtLocalSecs := (inst + w.tzSec * 1000000).fdiv 1000000
  let base : ZInfo :=
    { filename := fname, date_time := dtLocalSecs, create_system := 3,
      external_attr := (typ ||| mode) <<< 16 ||| dos_attr, compress := false, crc := none }
  if typ = S_IFDIR then
    .ok { base with crc := some 0 }
  else if typ = S_IFREG then
    .ok { base with compress := true }
  else
    .error (str "unsupported file type")

/-- `Wheel.make_zipinfo` (src/do.py lines 143–203).  Paths are component
lists, so the source's re-detection of directories from a trailing slash on
string paths cannot fire, and `assert not path.is_absolute()` always
holds. -/
def make_zipinfo (w : WheelCfg) (path : List Str) (typ0 : Option Nat) (dt : DTArg)
    (traversable executable writable : Bool) : Except Str ZInfo :=
  let typ := S_IFMT (typ0.getD 0)
  let typ := if typ = 0 then S_IFREG else typ
  let inst := instOfDTArg w dt
  if inst < minInstant w then
    if w.strict then
      .error (str "timestamp must not be before " ++ fmtLocal w (minInstant w))
    else
      make_zipinfo_finish w typ path (minInstant w) traversable executable writable
  else if inst > maxInstant w then
    if w.strict then
      .error (str "timestamp must not be after " ++ fmtLocal w (maxInstant w))
    else
      make_zipinfo_finish w typ path (maxInstant w) traversable executable writable
  else
    make_zipinfo_finish w typ path inst traversable executable writable

/-- The clamping performed by `make_zipinfo` in relaxed mode, on instants. -/
def clampRelaxed (w : WheelCfg) (inst : Int) : Int :=
  if inst < minInstant w then minInstant w
  else if inst > maxInstant w then maxInstant w
  else inst

/-- The value `make_zipinfo` returns in relaxed mode (total companion
function, used to discharge the `Except`). -/
def make_zipinfo_ok (tz : Int) (path : List Str) (typ0 : Option Nat) (dt : DTArg)
    (traversable executable writable : Bool) : ZInfo :=
  let w : WheelCfg := ⟨false, tz⟩
  let typ := S_IFMT (typ0.getD 0)
  let typ := if typ = 0 then S_IFREG else typ
  let inst := clampRelaxed w (instOfDTArg w dt)
  let mode := if S_ISDIR typ then 0o2775 else 0o775
  let mode := if (if S_ISDIR typ then traversable else executable) then mode else mode &&& 0o7666
  let mode := if writable then mode else mode &&& 0o7555
  let dos_attr := if S_ISDIR typ then 0x10 else 0
  let dos_attr := if writable then dos_attr else dos_attr ||| 1
  let dos_attr := if path.any (fun part => part.head? = some '.') then dos_attr ||| 2 else dos_attr
  let fname := joinPath path ++ (if S_ISDIR typ then str "/" else [])
  let dtLocalSecs := (inst + tz * 1000000).fdiv 1000000
  { filename := fname, date_time := dtLocalSecs, create_system := 3,
    external_attr := (typ ||| mode) <<< 16 ||| dos_attr,
    compress := decide (typ = S_IFREG), crc := if typ = S_IFDIR then some 0 else none }

/-! ## `Wheel._collect_tree_info` and `Wheel.add_tree` (src/do.py lines 205–263)

A source tree is modelled as an `FSTree`; a directory's `children` list
records one filesystem enumeration order of its entries. -/

/-- A node of the source tree: a regular file (with content-modification
time in µs and its access-check results), a directory (with its own on-disk
modification time, which the builder never reads, and its entries in
enumeration order), or a symbolic link. -/
inductive FSTree where
  | file (mtimeMicros : Int) (executable writable : Bool)
  | dir (mtimeMicros : Int) (children : List (Str × FSTree))
  | symlink

/-- The entries of a directory node (empty for non-directories). -/
def FSTree.children : FSTree → List (Str × FSTree)
  | .dir _ c => c
  | _ => []

/-- `path.is_file()` (after the symlink test). -/
def entryIsFile (e : Str × FSTree) : Bool :=
  match e.2 with
  | .file _ _ _ => true
  | _ => false

/-- `path.is_dir() and path.name != '__pycache__'` (after the symlink
test). -/
def entryIsDir (e : Str × FSTree) : Bool :=
  match e.2 with
  | .dir _ _ => decide (e.1 ≠ str "__pycache__")
  | _ => false

/-- The sort key of `_collect_tree_info`: case-insensitive comparison of the
entry name (`key=lambda e: e.name.casefold()`; Python's `list.sort` is
stable, as is `List.mergeSort`). -/
def byNameLe {α : Type} (a b : Str × α) : Bool :=
  lexLe (casefold a.1) (casefold b.1)

/-- `bool(rel.parts) and rel.parts[0].endswith('.dist-info')`. -/
def relIsDistInfo (rel : List Str) : Bool :=
  match rel with
  | r0 :: _ => (str ".dist-info").isSuffixOf r0
  | [] => false

/-- The `ZipInfo` built for one regular-file entry: in a metadata
(`.dist-info`) subtree `make_zipinfo(arc_path, typ=stat.S_IFREG)`, else
`make_zipinfo(arc_path, typ=st.st_mode, dt=st.st_mtime,
executable=os.access(X_OK), writable=os.access(W_OK))` (the `S_IFMT` of a
regular file's `st_mode` is `S_IFREG`). -/
def fileZinfo (w : WheelCfg) (isDI : Bool) (arcPath : List Str) : FSTree → Except Str ZInfo
  | .file mt ex wr =>
      if isDI then make_zipinfo w arcPath (some S_IFREG) .noneArg true true true
      else make_zipinfo w arcPath (some S_IFREG) (.timestamp mt) true ex wr
  | _ => .error (str "not a file")

/-- Termination helper. -/
def sizeOf_filter_le {α} [SizeOf α] (p : α → Bool) (l : List α) :
    sizeOf (l.filter p) ≤ sizeOf l := by
  induction l with
  | nil => simp
  | cons a l ih =>
    rw [List.filter_cons]
    split <;> simp <;> omega

/-- Termination helper. -/
def FSTree.sizeOf_children_lt (n : Str) (t : FSTree) :
    sizeOf t.children < sizeOf (n, t) := by
  cases t <;> simp [FSTree.children] <;> omega

/-- One output item of the tree walk: the directory's own entry (its
`ZipInfo`, or the bare relative path for a metadata directory) together
with the directory's files in sorted order, each paired with its source
name. -/
abbrev OutDir := (ZInfo ⊕ List Str) × List (Str × ZInfo)

/-- The maximum-accumulation of `date_time` values
(`if x > dt: dt = x`). -/
def dtMax (dt x : Int) : Int := if x > dt then x else dt

mutual
/-- `Wheel._collect_tree_info` (src/do.py lines 205–249), with the
in-place mutation of `tree_zinfo.date_time` rendered by computing the final
value before emitting the directory's output entry.  Files are processed
(and their timestamps folded into the directory timestamp) before the
sorted recursion into subdirectories; symbolic links match neither
`entryIsFile` nor `entryIsDir` and are skipped. -/
def collectTreeInfo (w : WheelCfg) (rel : List Str) (entries : List (Str × FSTree)) :
    Except Str (List OutDir × Int) := do
  let treeZ ← make_zipinfo w rel (some S_IFDIR) .noneArg true true true
  let isDI := relIsDistInfo rel
  let filesZ ← (entries.filter entryIsFile).mapM (fun e => do
    let z ← fileZinfo w isDI (rel ++ [e.1]) e.2
    pure (e.1, z))
  let dtFiles := if isDI then treeZ.date_time
    else filesZ.foldl (fun dt p => dtMax dt p.2.date_time) treeZ.date_time
  let filesSorted := filesZ.mergeSort byNameLe
  let dirs := (entries.filter entryIsDir).mergeSort byNameLe
  let sub ← collectSubdirs w rel dirs
  let dtFinal := if isDI then dtFiles
    else sub.foldl (fun dt p => dtMax dt p.2) dtFiles
  pure (((if isDI then Sum.inr rel else Sum.inl { treeZ with date_time := dtFinal }),
      filesSorted) :: (sub.map Prod.fst).flatten, dtFinal)
termination_by (sizeOf entries, 1)
decreasing_by
  have h1 := (List.mergeSort_perm (entries.filter entryIsDir) byNameLe).sizeOf_eq_sizeOf
  have h2 := sizeOf_filter_le entryIsDir entries
  have h3 : sizeOf dirs ≤ sizeOf entries := by
    rw [show dirs = (entries.filter entryIsDir).mergeSort byNameLe from rfl]
    omega
  rcases lt_or_eq_of_le h3 with h | h
  · exact Prod.Lex.left _ _ h
  · rw [h]; exact Prod.Lex.right _ (by omega)

/-- The loop `for dir in dirs: ... self._collect_tree_info(rel / dir.name,
dir, out_dirs)`. -/
def collectSubdirs (w : WheelCfg) (rel : List Str) :
    List (Str × FSTree) → Except Str (List (List OutDir × Int))
  | [] => pure []
  | (n, t) :: rest => do
      let r ← collectTreeInfo w (rel ++ [n]) t.children
      let rs ← collectSubdirs w rel rest
      pure (r :: rs)
termination_by l => (sizeOf l, 0)
decreasing_by
  all_goals
    have h1 := FSTree.sizeOf_children_lt n t
    apply Prod.Lex.left
    simp only [Prod.mk.sizeOf_spec] at h1
    simp only [List.cons.sizeOf_spec, Prod.mk.sizeOf_spec]
    omega
end

/-- `Wheel.add_tree` (src/do.py lines 251–263): the archive root is already
a relative component list; the result is the ordered output of the walk
together with the updated `self.__modified`. -/
def add_tree (w : WheelCfg) (modified : Int) (root : List Str) (tree : FSTree) :
    Except Str (List OutDir × Int) := do
  let (dirs, date_time) ← collectTreeInfo w root tree.children
  pure (dirs, if date_time > modified then date_time else modified)

/-- Total companion of `fileZinfo` in relaxed mode. -/
def fileZinfoOk (tz : Int) (isDI : Bool) (arcPath : List Str) : FSTree → ZInfo
  | .file mt ex wr =>
      if isDI then make_zipinfo_ok tz arcPath (some S_IFREG) .noneArg true true true
      else make_zipinfo_ok tz arcPath (some S_IFREG) (.timestamp mt) true ex wr
  | _ => make_zipinfo_ok tz arcPath (some S_IFREG) .noneArg true true true

mutual
/-- Total companion of `collectTreeInfo` in relaxed mode (where no branch of
`make_zipinfo` can raise). -/
def collectOk (tz : Int) (rel : List Str) (entries : List (Str × FSTree)) :
    List OutDir × Int :=
  let treeZ := make_zipinfo_ok tz rel (some S_IFDIR) .noneArg true true true
  let isDI := relIsDistInfo rel
  let filesZ := (entries.filter entryIsFile).map
    (fun e => (e.1, fileZinfoOk tz isDI (rel ++ [e.1]) e.2))
  let dtFiles := if isDI then treeZ.date_time
    else filesZ.foldl (fun dt p => dtMax dt p.2.date_time) treeZ.date_time
  let filesSorted := filesZ.mergeSort byNameLe
  let dirs := (entries.filter entryIsDir).mergeSort byNameLe
  let sub := collectOkList tz rel dirs
  let dtFinal := if isDI then dtFiles
    else sub.foldl (fun dt p => dtMax dt p.2) dtFiles
  (((if isDI then Sum.inr rel else Sum.inl { treeZ with date_time := dtFinal }),
      filesSorted) :: (sub.map Prod.fst).flatten, dtFinal)
termination_by (sizeOf entries, 1)
decreasing_by
  have h1 := (List.mergeSort_perm (entries.filter entryIsDir) byNameLe).sizeOf_eq_sizeOf
  have h2 := sizeOf_filter_le entryIsDir entries
  have h3 : sizeOf dirs ≤ sizeOf entries := by
    rw [show dirs = (entries.filter entryIsDir).mergeSort byNameLe from rfl]
    omega
  rcases lt_or_eq_of_le h3 with h | h
  · exact Prod.Lex.left _ _ h
  · rw [h]; exact Prod.Lex.right _ (by omega)

/-- Total companion of `collectSubdirs` in relaxed mode. -/
def collectOkList (tz : Int) (rel : List Str) :
    List (Str × FSTree) → List (List OutDir × Int)
  | [] => []
  | (n, t) :: rest => collectOk tz (rel ++ [n]) t.children :: collectOkList tz rel rest
termination_by l => (sizeOf l, 0)
decreasing_by
  all_goals
    have h1 := FSTree.sizeOf_children_lt n t
    apply Prod.Lex.left
    simp only [Prod.mk.sizeOf_spec] at h1
    simp only [List.cons.sizeOf_spec, Prod.mk.sizeOf_spec]
    omega
end

/-- Case-insensitive distinctness of the names the walk sorts: within each
directory the file names have pairwise-distinct casefolds and so do the
subdirectory names. -/
def keysOkEntries (c : List (Str × FSTree)) : Bool :=
  decide (((c.filter entryIsFile).map fun e => casefold e.1).Nodup)
    && decide (((c.filter entryIsDir).map fun e => casefold e.1).Nodup)

mutual
/-- `keysOkEntries` at every directory of the tree. -/
def keysOk : FSTree → Bool
  | .file _ _ _ => true
  | .symlink => true
  | .dir _ c => keysOkEntries c && keysOkList c
termination_by t => (sizeOf t, 1)
decreasing_by
  apply Prod.Lex.left
  simp only [FSTree.dir.sizeOf_spec]
  omega

/-- `keysOk` for every entry of a directory. -/
def keysOkList : List (Str × FSTree) → Bool
  | [] => true
  | (_, t) :: rest => keysOk t && keysOkList rest
termination_by l => (sizeOf l, 0)
decreasing_by
  · apply Prod.Lex.left
    simp only [List.cons.sizeOf_spec, Prod.mk.sizeOf_spec]
    omega
  · apply Prod.Lex.left
    simp only [List.cons.sizeOf_spec, Prod.mk.sizeOf_spec]
    omega
end

mutual
/-- Two trees with the same files, directories and attributes, differing
only in the enumeration order of each directory's entries and in the
directories' own on-disk modification times. -/
inductive TreePerm : FSTree → FSTree → Prop where
  | file (mt : Int) (ex wr : Bool) : TreePerm (.file mt ex wr) (.file mt ex wr)
  | symlink : TreePerm .symlink .symlink
  | dir (m m' : Int) (c l c' : List (Str × FSTree)) :
      c.Perm l → EntriesAligned l c' → TreePerm (.dir m c) (.dir m' c')

/-- Pointwise alignment of two entry lists: same names in the same
positions, with `TreePerm`-related subtrees. -/
inductive EntriesAligned : List (Str × FSTree) → List (Str × FSTree) → Prop where
  | nil : EntriesAligned [] []
  | cons (n : Str) (t t' : FSTree) (r r' : List (Str × FSTree)) :
      TreePerm t t' → EntriesAligned r r' → EntriesAligned ((n, t) :: r) ((n, t') :: r')
end

/-- Two entry lists denote the same directory contents up to enumeration
order. -/
def EntriesRel (c c' : List (Str × FSTree)) : Prop :=
  ∃ l, c.Perm l ∧ EntriesAligned l c'

/-- The `date_time` of a directory entry built with no timestamp: local
1980-01-01T00:00:00 in the epoch-second representation. -/
def floorDT : Int := 315532800

/-- The archived `date_time` of every file entry in a walk output, in
output order. -/
def outFileDTs (outs : List OutDir) : List Int :=
  (outs.map (fun o => o.2.map (fun p => p.2.date_time))).flatten

/-! ## `get_version_from_git` (src/_get_version.py)

The three git subprocesses are external collaborators; the model takes
their textual outputs (`head` from `symbolic-ref`, `describe` from
`describe`) as inputs.  The `packaging` version grammar is likewise
external: `parseVersion` models `re.fullmatch(VERSION_PATTERN, ...)`
together with `packaging.version.parse` on a faithful subset of PEP 440
(epoch, release, pre, post, dev, local; lowercase spellings, as the source
matches case-sensitively). -/

/-- `str.split(sep)` keeping empty parts (always returns at least one
part). -/
def pySplitP (p : Char → Bool) : Str → List Str
  | [] => [[]]
  | c :: rest =>
      match pySplitP p rest with
      | h :: t => if p c then [] :: h :: t else (c :: h) :: t
      | [] => if p c then [[], []] else [[c]]

/-- `str.split(sep)` for a single separator character. -/
def pySplit (sep : Char) : Str → List Str := pySplitP (fun c => c = sep)

/-- `str.rsplit(sep, maxsplit=2)`: at most two splits, from the right. -/
def rsplit2 (sep : Char) (s : Str) : List Str :=
  let parts := pySplit sep s
  let n := parts.length
  if n ≤ 3 then parts
  else [List.intercalate [sep] (parts.take (n - 2)), parts.getD (n - 2) [], parts.getD (n - 1) []]

/-- `str.removesuffix`. -/
def removeSuffix (s suf : Str) : Str :=
  if suf.isSuffixOf s then s.take (s.length - suf.length) else s

/-- Decimal digits of a natural number, most significant first. -/
def natDigitsAux : Nat → Nat → Str
  | 0, _ => []
  | fuel + 1, n =>
      if n < 10 then [Char.ofNat (48 + n)]
      else natDigitsAux fuel (n / 10) ++ [Char.ofNat (48 + n % 10)]

/-- Decimal rendering of a natural number. -/
def natDigits (n : Nat) : Str := natDigitsAux (n + 1) n

/-- Numeric value of a digit string. -/
def natOfDigits (s : Str) : Nat := s.foldl (fun n c => n * 10 + (c.toNat - 48)) 0

/-- `int(s)` on a digit string (`ValueError` otherwise). -/
def parseNat? (s : Str) : Option Nat :=
  if s ≠ [] ∧ s.all Char.isDigit then some (natOfDigits s) else none

/-- Split a string into its leading digit span and the remainder. -/
def spanDigits (s : Str) : Str × Str := (s.takeWhile Char.isDigit, s.dropWhile Char.isDigit)

/-- The components of a parsed PEP 440 version (`packaging.version.Version`):
epoch, release numbers, normalized pre-release pair, post, dev, and the
normalized local segment. -/
structure VersionS where
  epoch : Nat
  release : List Nat
  pre : Option (Str × Nat)
  post : Option Nat
  dev : Option Nat
  loc : Option Str
deriving DecidableEq, Repr

/-- `Version('0.0')`. -/
def VERSION0 : VersionS := ⟨0, [0, 0], none, none, none, none⟩

/-- Drop one leading `[-_.]` separator, if present. -/
def stripSep : Str → Str
  | c :: r => if c = '-' ∨ c = '_' ∨ c = '.' then c :: r |>.tail else c :: r
  | [] => []

/-- An optional `[-_.]? N` number suffix (consuming nothing when no digits
follow). -/
def takeOptNum (s : Str) : Nat × Str :=
  let s1 := stripSep s
  let (d, rest) := spanDigits s1
  if d = [] then (0, s) else (natOfDigits d, rest)

/-- `[-_.]? (word) [-_.]? N?` for the first matching spelling, returning the
normalized spelling. -/
def parseWordNum (words : List (Str × Str)) (s : Str) : Option (Str × Nat × Str) :=
  match words.find? (fun wp => wp.1.isPrefixOf (stripSep s)) with
  | some wp =>
      let (n, rest2) := takeOptNum ((stripSep s).drop wp.1.length)
      some (wp.2, n, rest2)
  | none => none

/-- Pre-release spellings and their normalizations. -/
def preWords : List (Str × Str) :=
  [(str "alpha", str "a"), (str "beta", str "b"), (str "preview", str "rc"),
   (str "pre", str "rc"), (str "rc", str "rc"), (str "a", str "a"),
   (str "b", str "b"), (str "c", str "rc")]

/-- Post-release spellings. -/
def postWords : List (Str × Str) :=
  [(str "post", str "post"), (str "rev", str "post"), (str "r", str "post")]

/-- Dev-release spelling. -/
def devWords : List (Str × Str) := [(str "dev", str "dev")]

/-- Lowercase alphanumeric characters (the local-segment alphabet). -/
def isAlnumLower (c : Char) : Bool := c.isDigit || ('a' ≤ c && c ≤ 'z')

/-- The normalized local version segment: `[a-z0-9]+([-_.][a-z0-9]+)*`,
separators normalized to `.`. -/
def parseLocalSegs (r : Str) : Option Str :=
  let segs := pySplitP (fun c => c = '-' || c = '_' || c = '.') r
  if segs.all (fun seg => decide (seg ≠ []) && seg.all isAlnumLower) then
    some (List.intercalate (str ".") segs)
  else none

/-- `N (. N)*`, with explicit fuel (the recursion consumes characters). -/
def parseReleaseAux : Nat → Str → Option (List Nat × Str)
  | 0, _ => none
  | fuel + 1, s =>
      let (d, rest) := spanDigits s
      if d = [] then none
      else
        match rest with
        | '.' :: rest' =>
            if (match rest' with | c :: _ => c.isDigit | [] => false) then
              match parseReleaseAux fuel rest' with
              | some (ns, r) => some (natOfDigits d :: ns, r)
              | none => none
            else some ([natOfDigits d], rest)
        | _ => some ([natOfDigits d], rest)

/-- `re.fullmatch(VERSION_PATTERN, ...)` together with
`packaging.version.parse`, on the modelled subset. -/
def parseEpoch (s : Str) : Nat × Str :=
  match spanDigits s with
  | (d, '!' :: r) => if d = [] then (0, s) else (natOfDigits d, r)
  | _ => (0, s)

def parsePre (s : Str) : Option (Str × Nat) × Str :=
  match parseWordNum preWords s with
  | some (norm, n, rest) => (some (norm, n), rest)
  | none => (none, s)

def parsePost (s : Str) : Option Nat × Str :=
  match parseWordNum postWords s with
  | some (_, n, rest) => (some n, rest)
  | none =>
      match s with
      | '-' :: r =>
          match spanDigits r with
          | ([], _) => (none, s)
          | (d2, r2) => (some (natOfDigits d2), r2)
      | _ => (none, s)

def parseDev (s : Str) : Option Nat × Str :=
  match parseWordNum devWords s with
  | some (_, n, rest) => (some n, rest)
  | none => (none, s)

def parseTail (epoch : Nat) (release : List Nat) (s : Str) : Option VersionS :=
  let (pre, s) := parsePre s
  let (post, s) := parsePost s
  let (dev, s) := parseDev s
  match s with
  | [] => some ⟨epoch, release, pre, post, dev, none⟩
  | '+' :: r => do
      let lsegs ← parseLocalSegs r
      some ⟨epoch, release, pre, post, dev, some lsegs⟩
  | _ => none

def parseVersion (s0 : Str) : Option VersionS := do
  let s := match s0 with | 'v' :: r => r | _ => s0
  let (epoch, s) := parseEpoch s
  let (release, s) ← parseReleaseAux (s.length + 1) s
  parseTail epoch release s

/-- The reference filter of lines 29–32: keep refs whose final path segment
parses as a version. -/
def filterVersionRefs (refs : List Str) : List Str :=
  refs.filter (fun ref => (parseVersion ((pySplit '/' ref).getLastD [])).isSome)

/-- `Version.base_version`: `epoch!` (when nonzero) plus the dot-joined
release numbers. -/
def base_version (v : VersionS) : Str :=
  (if v.epoch ≠ 0 then natDigits v.epoch ++ ['!'] else [])
    ++ List.intercalate (str ".") (v.release.map natDigits)

/-- The composition step of `get_version_from_git` (lines 75–82). -/
def composeVersion (v : VersionS) (post : Nat) (dirty : Bool) (locs : List Str) : Str :=
  base_version v
    ++ (match v.pre with | some (w, n) => w ++ natDigits n | none => [])
    ++ (if post ≠ 0 ∨ dirty = true ∨ v.post ≠ none then
          str ".post" ++ natDigits (v.post.getD 0 + post) else [])
    ++ (match v.dev with | some n => str ".dev" ++ natDigits n | none => [])
    ++ (if locs ≠ [] then '+' :: List.intercalate (str ".") locs else [])

/-- The conventional trunk branch names. -/
def trunkNames : List Str := [str "main", str "master", str "develop"]

/-- `get_version_from_git` (src/_get_version.py lines 17–82), as a function
of the `symbolic-ref` output (`head`) and the `describe` output.  Python's
`raise` is an `Except.error`; note that in the fallback match arm the
source rebinds `local`, discarding the branch-derived prefix. -/
def get_version_from_git (head : Str) (describe : Str) : Except Str Str := do
  let dirty := (str "-dirty").isSuffixOf describe
  let parts0 := pySplit '/' (removeSuffix describe (str "-dirty"))
  let localL := parts0.dropLast
  let describe1 := parts0.getLastD []
  let localL :=
    match localL with
    | l0 :: rest => if l0 = str "heads" ∨ l0 = str "tags" then rest else l0 :: rest
    | [] => []
  let localL := if head ∈ trunkNames then localL else head :: localL
  match rsplit2 '-' describe1 with
  | [version_str, postStr, commit] => do
      let (v, localL) :=
        match parseVersion version_str with
        | some v =>
            (v, match v.loc with | some lseg => localL ++ [lseg] | none => localL)
        | none => (VERSION0, localL ++ [version_str])
      let post ←
        match parseNat? postStr with
        | some n => pure n
        | none => Except.error (str "invalid literal for int")
      let localL := if post ≠ 0 ∨ dirty = true then localL ++ [commit] else localL
      let localL := if dirty then localL ++ [str "dirty"] else localL
      pure (composeVersion v post dirty localL)
  | commit :: localRest => do
      let localL := ('g' :: commit) :: localRest
      let localL := if dirty then localL ++ [str "dirty"] else localL
      pure (composeVersion VERSION0 0 dirty localL)
  | [] => Except.error (str "NotImplementedError")

/-- `str(Version)` of `packaging` on the modelled subset: the normalized
rendering of a parsed version. -/
def normalizedVersion (v : VersionS) : Str :=
  base_version v
    ++ (match v.pre with | some (w, n) => w ++ natDigits n | none => [])
    ++ (match v.post with | some n => str ".post" ++ natDigits n | none => [])
    ++ (match v.dev with | some n => str ".dev" ++ natDigits n | none => [])
    ++ (match v.loc with | some l => '+' :: l | none => [])

/-- Decidable equality of `Except` results. -/
instance instDecEqExcept {ε α : Type} [DecidableEq ε] [DecidableEq α] :
    DecidableEq (Except ε α) := fun a b =>
  match a, b with
  | .error e, .error f =>
      if h : e = f then .isTrue (by rw [h]) else .isFalse (fun hh => h (Except.error.inj hh))
  | .ok x, .ok y =>
      if h : x = y then .isTrue (by rw [h]) else .isFalse (fun hh => h (Except.ok.inj hh))
  | .error _, .ok _ => .isFalse (fun hh => Except.noConfusion hh)
  | .ok _, .error _ => .isFalse (fun hh => Except.noConfusion hh)

/-- A resolved timezone in the single-transition fall-back model backing
`SystemTZ` (src/_get_tzinfo.py): standard UTC offset `stdOff` seconds, DST
offset one hour more, and one DST-to-standard transition at UTC instant
`T` (seconds since the epoch).  `time.localtime` renders an instant with
the DST offset strictly before `T` and the standard offset from `T` on. -/
structure FBZone where
  T : Int
  stdOff : Int

/-- `time.localtime(secs).tm_gmtoff`: the UTC offset in effect at `secs`. -/
def loOff (z : FBZone) (secs : Int) : Int := if secs < z.T then z.stdOff + 3600 else z.stdOff

/-- `time.localtime(secs).tm_isdst` (the zone resolves DST definitely). -/
def loIsDst (z : FBZone) (secs : Int) : Bool := decide (secs < z.T)

/-- `time.mktime` on local fields rendered as naive epoch seconds with an
explicit `tm_isdst` flag (the `time.mktime((*t[:8], not t.tm_isdst))`
calls of lines 113 and 131). -/
def mktimeFlag (z : FBZone) (naive : Int) (dst : Bool) : Int :=
  naive - (if dst then z.stdOff + 3600 else z.stdOff)

/-- `time.mktime(..., -1)` (line 123): resolve naive local fields to an
instant whose local rendering matches them, trying the DST interpretation
first; every naive time has at least one consistent interpretation in a
pure fall-back zone. -/
def mktimeAuto (z : FBZone) (naive : Int) : Int :=
  if naive - (z.stdOff + 3600) < z.T then naive - (z.stdOff + 3600) else naive - z.stdOff

/-- `SystemTZ.fromutc` (lines 82–119) on a UTC instant `s`: the local
datetime, as naive epoch seconds (its calendar fields are `calOfSecs` of
this value) together with the `fold` flag chosen by lines 111–119. -/
def fromutc (z : FBZone) (s : Int) : Int × Bool :=
  let naive := s + loOff z s
  let secs0 := mktimeFlag z naive (! loIsDst z s)
  if secs0 ≥ s then (naive, false)
  else (naive, decide (loOff z s < loOff z secs0))

/-- `SystemTZ._mktime` (lines 121–141) on a local datetime given as naive
epoch seconds plus `fold`: the UTC instant it denotes (the seconds part of
the returned pair; the struct part is `localtime` of it). -/
def SystemTZ_mktime (z : FBZone) (naive : Int) (fold : Bool) : Int :=
  let secs := mktimeAuto z naive
  let t_off := loOff z secs
  let secs0 := mktimeFlag z (secs + t_off) (! loIsDst z secs)
  if secs0 = secs then secs
  else
    let t0_off := loOff z secs0
    if t_off = t0_off then secs
    else if ((decide (t_off > t0_off)).xor fold) = true then secs
    else secs0

/-- The URL-safe base64 alphabet (RFC 4648 with `-` and `_`). -/
def b64char (n : Nat) : Char :=
  if n < 26 then Char.ofNat (65 + n)
  else if n < 52 then Char.ofNat (97 + (n - 26))
  else if n < 62 then Char.ofNat (48 + (n - 52))
  else if n = 62 then '-' else '_'

/-- `base64.urlsafe_b64encode` on a byte list, `=`-padded. -/
def b64urlEncode : List Nat → Str
  | [] => []
  | [b1] => [b64char (b1 / 4), b64char (b1 % 4 * 16), '=', '=']
  | [b1, b2] => [b64char (b1 / 4), b64char (b1 % 4 * 16 + b2 / 16), b64char (b2 % 16 * 4), '=']
  | b1 :: b2 :: b3 :: rest =>
      [b64char (b1 / 4), b64char (b1 % 4 * 16 + b2 / 16),
        b64char (b2 % 16 * 4 + b3 / 64), b64char (b3 % 64)] ++ b64urlEncode rest

/-- `str.rstrip(c)`: drop trailing occurrences of one character. -/
def rstripChar (c : Char) (s : Str) : Str :=
  (s.reverse.dropWhile (fun x => x = c)).reverse

/-- The digest rendering of `close()` line 312: url-safe base64 with the
`=` padding stripped. -/
def b64urlNoPad (bs : List Nat) : Str := rstripChar '=' (b64urlEncode bs)

/-- Does `QUOTE_MINIMAL` have to quote this field?  The `__RecordDialect`
delimiter is `,`, the quote character `"`, and the line terminator `\n`
(the writer also quotes on `\r`). -/
def csvNeedsQuote (s : Str) : Bool :=
  s.any (fun c => c = ',' ∨ c = '"' ∨ c = '\n' ∨ c = '\r')

/-- Escaping inside a quoted field: `doublequote = False` with
`escapechar = '\\'` puts a backslash before each quote character. -/
def csvEscapeQuoted (s : Str) : Str :=
  s.flatMap (fun c => if c = '"' then ['\\', c] else [c])

/-- One field as written by the `csv` writer under `__RecordDialect`. -/
def csvField (s : Str) : Str :=
  if csvNeedsQuote s then '"' :: (csvEscapeQuoted s ++ ['"']) else s

/-- One row: comma-delimited fields terminated by `lineterminator = '\n'`. -/
def csvRow (fields : List Str) : Str :=
  List.intercalate [','] (fields.map csvField) ++ ['\n']

/-- One `__record` entry: archive path, `sha256` digest bytes of the file
content, and its byte size. -/
structure RecEntry where
  path : Str
  digest : List Nat
  size : Nat

/-- The digest field of a RECORD row (line 312): `{hash.name}={digest}`. -/
def digestField (e : RecEntry) : Str := str "sha256=" ++ b64urlNoPad e.digest

/-- The rows written by `close()` (lines 309–314): one per `__record`
item, then the sentinel row `(path, None, None)` for RECORD itself, whose
`None` entries render as empty fields. -/
def recordRows (pfx : Str) (entries : List RecEntry) : List Str :=
  entries.map (fun e => csvRow [e.path, digestField e, natDigits e.size])
    ++ [csvRow [pfx ++ str "/RECORD", [], []]]

/-- The full RECORD file contents written into the archive. -/
def recordFile (pfx : Str) (entries : List RecEntry) : Str :=
  (recordRows pfx entries).flatten



theorem make_zipinfo_finish_reg (w : WheelCfg) (path : List Str) (inst : Int)
    (trav ex wr : Bool) :
    make_zipinfo_finish w S_IFREG path inst trav ex wr
      = .ok { filename := joinPath path,
              date_time := (inst + w.tzSec * 1000000).fdiv 1000000,
              create_system := 3,
              external_attr :=
                (S_IFREG |||
                  ((if ex then 0o775 else 0o664) &&& if wr then 0o7777 else 0o7555)) <<< 16
                ||| ((if wr then 0 else 1)
                     ||| if path.any (fun part => part.head? = some '.') then 2 else 0),
              compress := true, crc := none } := by
  unfold make_zipinfo_finish
  cases trav <;> cases ex <;> cases wr <;>
    cases h : path.any (fun part => part.head? = some '.') <;>
    simp +decide [h, ZInfo.mk.injEq, S_ISDIR, S_IFMT, S_IFDIR, S_IFREG]

theorem make_zipinfo_finish_dir (w : WheelCfg) (path : List Str) (inst : Int)
    (trav ex wr : Bool) :
    make_zipinfo_finish w S_IFDIR path inst trav ex wr
      = .ok { filename := joinPath path ++ str "/",
              date_time := (inst + w.tzSec * 1000000).fdiv 1000000,
              create_system := 3,
              external_attr :=
                (S_IFDIR |||
                  ((if trav then 0o2775 else 0o2664) &&& if wr then 0o7777 else 0o7555)) <<< 16
                ||| (0x10 ||| (if wr then 0 else 1)
                     ||| if path.any (fun part => part.head? = some '.') then 2 else 0),
              compress := false, crc := some 0 } := by
  unfold make_zipinfo_finish
  cases trav <;> cases ex <;> cases wr <;>
    cases h : path.any (fun part => part.head? = some '.') <;>
    simp +decide [h, ZInfo.mk.injEq, S_ISDIR, S_IFMT, S_IFDIR, S_IFREG]

theorem make_zipinfo_relaxed (tz : Int) (path : List Str) (typ0 : Option Nat) (dt : DTArg)
    (trav ex wr : Bool)
    (htyp : S_IFMT (typ0.getD 0) = S_IFDIR ∨ S_IFMT (typ0.getD 0) = S_IFREG
            ∨ S_IFMT (typ0.getD 0) = 0) :
    make_zipinfo ⟨false, tz⟩ path typ0 dt trav ex wr
      = .ok (make_zipinfo_ok tz path typ0 dt trav ex wr) := by
  unfold make_zipinfo make_zipinfo_ok clampRelaxed
  rcases htyp with h | h | h <;> rw [h] <;>
    by_cases h1 : instOfDTArg ⟨false, tz⟩ dt < minInstant ⟨false, tz⟩ <;>
    by_cases h2 : instOfDTArg ⟨false, tz⟩ dt > maxInstant ⟨false, tz⟩ <;>
    simp only [h1, h2, if_true, if_false, ite_true, ite_false, if_pos, if_neg,
      not_false_iff, not_true] <;>
    simp +decide [make_zipinfo_finish, ZInfo.mk.injEq, S_ISDIR, S_IFMT, S_IFDIR, S_IFREG]

theorem make_zipinfo_false_eq_finish (tz : Int) (p : List Str) (typ0 : Option Nat)
    (dt : DTArg) (trav ex wr : Bool) :
    make_zipinfo ⟨false, tz⟩ p typ0 dt trav ex wr
      = make_zipinfo_finish ⟨false, tz⟩
          (if S_IFMT (typ0.getD 0) = 0 then S_IFREG else S_IFMT (typ0.getD 0)) p
          (clampRelaxed ⟨false, tz⟩ (instOfDTArg ⟨false, tz⟩ dt)) trav ex wr := by
  unfold make_zipinfo clampRelaxed
  by_cases h1 : instOfDTArg ⟨false, tz⟩ dt < minInstant ⟨false, tz⟩
  · rw [if_pos h1, if_pos h1]; simp
  · rw [if_neg h1, if_neg h1]
    by_cases h2 : instOfDTArg ⟨false, tz⟩ dt > maxInstant ⟨false, tz⟩
    · rw [if_pos h2, if_pos h2]; simp
    · rw [if_neg h2, if_neg h2]

/-- Helper constants for the clamp bounds: the floor renders as local
1980-01-01T00:00:00 and the ceiling as local 2107-12-31T23:59:59. -/
theorem minInstant_add_tz (w : WheelCfg) :
    minInstant w + w.tzSec * 1000000 = 315532800 * 1000000 := by
  have h : epochSecs (1980, 1, 1, 0, 0, 0) = 315532800 := by decide
  unfold minInstant
  rw [h]; ring

theorem maxInstant_add_tz (w : WheelCfg) :
    maxInstant w + w.tzSec * 1000000 = 4354819199 * 1000000 + 999999 := by
  have h : epochSecs (2107, 12, 31, 23, 59, 59) = 4354819199 := by decide
  unfold maxInstant
  rw [h]; ring

/-- **C3**: `make_zipinfo` converts the candidate timestamp into local
calendar time and clamps it into
[1980-01-01T00:00:00, 2107-12-31T23:59:59.999999]: below the floor (or
above the ceiling), relaxed mode — the default, `strict_timestamps=False` —
archives exactly the boundary value (a pre-1980 file is archived at exactly
1980-01-01T00:00:00), while strict mode raises an error reporting the
violated bound. -/
theorem timestamp_clamping (tz us : Int) (path : List Str) (trav ex wr : Bool) :
    defaultStrictTimestamps = false
    ∧ (us < minInstant ⟨false, tz⟩ →
      (make_zipinfo ⟨false, tz⟩ path none (.timestamp us) trav ex wr).map
          (fun z => calOfSecs z.date_time) = .ok (1980, 1, 1, 0, 0, 0)
      ∧ make_zipinfo ⟨true, tz⟩ path none (.timestamp us) trav ex wr
          = .error (str "timestamp must not be before "
              ++ fmtLocal ⟨true, tz⟩ (minInstant ⟨true, tz⟩)))
    ∧ (us > maxInstant ⟨false, tz⟩ →
      (make_zipinfo ⟨false, tz⟩ path none (.timestamp us) trav ex wr).map
          (fun z => calOfSecs z.date_time) = .ok (2107, 12, 31, 23, 59, 59)
      ∧ make_zipinfo ⟨true, tz⟩ path none (.timestamp us) trav ex wr
          = .error (str "timestamp must not be after "
              ++ fmtLocal ⟨true, tz⟩ (maxInstant ⟨true, tz⟩))) := by
  have htyp : (if S_IFMT ((none : Option Nat).getD 0) = 0 then S_IFREG
      else S_IFMT ((none : Option Nat).getD 0)) = S_IFREG := by decide
  refine ⟨rfl, fun h => ⟨?_, ?_⟩, fun h => ⟨?_, ?_⟩⟩
  · simp only [make_zipinfo, instOfDTArg, htyp]
    rw [if_pos h]
    simp only [Bool.false_eq_true, if_false, ite_false,
      make_zipinfo_finish_reg ⟨false, tz⟩ path]
    have heq : minInstant ⟨false, tz⟩ + (⟨false, tz⟩ : WheelCfg).tzSec * 1000000
        = 315532800 * 1000000 := minInstant_add_tz _
    simp only [Except.map, heq]
    have h2 : ((315532800 * 1000000 : Int)).fdiv 1000000 = 315532800 := by decide
    rw [h2]
    have h3 : calOfSecs 315532800 = (1980, 1, 1, 0, 0, 0) := by decide
    rw [h3]
  · simp only [make_zipinfo, instOfDTArg, htyp]
    rw [if_pos (show us < minInstant ⟨true, tz⟩ from h)]
    simp
  · simp only [make_zipinfo, instOfDTArg, htyp]
    rw [if_neg (show ¬ us < minInstant ⟨false, tz⟩ by
          have := minInstant_add_tz (⟨false, tz⟩ : WheelCfg)
          have := maxInstant_add_tz (⟨false, tz⟩ : WheelCfg)
          omega),
      if_pos h]
    simp only [Bool.false_eq_true, if_false, ite_false,
      make_zipinfo_finish_reg ⟨false, tz⟩ path]
    have heq : maxInstant ⟨false, tz⟩ + (⟨false, tz⟩ : WheelCfg).tzSec * 1000000
        = 4354819199 * 1000000 + 999999 := maxInstant_add_tz _
    simp only [Except.map, heq]
    have h2 : ((4354819199 * 1000000 + 999999 : Int)).fdiv 1000000 = 4354819199 := by decide
    rw [h2]
    have h3 : calOfSecs 4354819199 = (2107, 12, 31, 23, 59, 59) := by decide
    rw [h3]
  · simp only [make_zipinfo, instOfDTArg, htyp]
    rw [if_neg (show ¬ us < minInstant ⟨true, tz⟩ by
          have := minInstant_add_tz (⟨true, tz⟩ : WheelCfg)
          have := maxInstant_add_tz (⟨true, tz⟩ : WheelCfg)
          have := minInstant_add_tz (⟨false, tz⟩ : WheelCfg)
          have := maxInstant_add_tz (⟨false, tz⟩ : WheelCfg)
          simp only [WheelCfg.tzSec] at *
          omega),
      if_pos (show us > maxInstant ⟨true, tz⟩ from h)]
    simp

/-- Witness for C3 at `tz = 0`, `us = -1` (below the floor) and
`us = 5 * 10^15` µs (above the ceiling). -/
theorem timestamp_clamping_witness :
    ((-1 : Int) < minInstant ⟨false, 0⟩
      ∧ (make_zipinfo ⟨false, 0⟩ [str "x"] none (.timestamp (-1))
            true true true).map (fun z => calOfSecs z.date_time) = .ok (1980, 1, 1, 0, 0, 0))
    ∧ ((5000000000000000 : Int) > maxInstant ⟨false, 0⟩
      ∧ make_zipinfo ⟨true, 0⟩ [str "x"] none (.timestamp 5000000000000000) true true true
          = .error (str "timestamp must not be after "
              ++ fmtLocal ⟨true, 0⟩ (maxInstant ⟨true, 0⟩))) :=
  ⟨⟨by decide, ((timestamp_clamping 0 (-1) [str "x"] true true true).2.1 (by decide)).1⟩,
   ⟨by decide, ((timestamp_clamping 0 5000000000000000 [str "x"] true true true).2.2
      (by decide)).2⟩⟩

/-- **C8**: `make_zipinfo` encodes permissions as claimed: Unix mode 0775
for executable files and 0664 otherwise; directories always 2775 (setgid)
minus the execute bits when not traversable; write bits removed whenever not
writable; the DOS byte carries 0x10 for directories, 0x1 when not writable,
and the hidden bit 0x2 whenever any component of the archive path begins
with a dot (so `.secret` under any directory is hidden, and
`pkg/visible.txt` is not); external attributes pack `(type|mode) << 16`
with the DOS byte in the low byte. -/
theorem permission_encoding (tz us : Int) (path : List Str) (isDir trav ex wr : Bool) :
    ((make_zipinfo ⟨defaultStrictTimestamps, tz⟩ path
        (some (if isDir then S_IFDIR else S_IFREG)) (.timestamp us) trav ex wr).map
          (fun z => z.external_attr)
      = .ok ((((if isDir then S_IFDIR else S_IFREG) |||
            ((if isDir then (if trav then 0o2775 else 0o2664)
              else (if ex then 0o775 else 0o664))
              &&& (if wr then 0o7777 else 0o7555))) <<< 16)
          ||| ((if isDir then 0x10 else 0) ||| (if wr then 0 else 1)
               ||| (if path.any (fun part => part.head? = some '.') then 2 else 0))))
    ∧ (∀ d : List Str,
        (make_zipinfo ⟨defaultStrictTimestamps, tz⟩ (d ++ [str ".secret"]) (some S_IFREG)
            (.timestamp us) trav ex wr).map (fun z => z.external_attr &&& 2) = .ok 2)
    ∧ (make_zipinfo ⟨defaultStrictTimestamps, tz⟩ [str "pkg", str "visible.txt"]
          (some S_IFREG) (.timestamp us) trav ex wr).map (fun z => z.external_attr &&& 2)
        = .ok 0 := by
  have hreg : ∀ (p : List Str),
      make_zipinfo ⟨defaultStrictTimestamps, tz⟩ p (some S_IFREG) (.timestamp us) trav ex wr
        = make_zipinfo_finish ⟨false, tz⟩ S_IFREG p
            (clampRelaxed ⟨false, tz⟩ us) trav ex wr := by
    intro p
    rw [show (⟨defaultStrictTimestamps, tz⟩ : WheelCfg) = ⟨false, tz⟩ from rfl,
      make_zipinfo_false_eq_finish]
    rw [show (if S_IFMT ((some S_IFREG).getD 0) = 0 then S_IFREG
        else S_IFMT ((some S_IFREG).getD 0)) = S_IFREG from by decide]
    rfl
  have hdir :
      make_zipinfo ⟨defaultStrictTimestamps, tz⟩ path (some S_IFDIR) (.timestamp us) trav ex wr
        = make_zipinfo_finish ⟨false, tz⟩ S_IFDIR path
            (clampRelaxed ⟨false, tz⟩ us) trav ex wr := by
    rw [show (⟨defaultStrictTimestamps, tz⟩ : WheelCfg) = ⟨false, tz⟩ from rfl,
      make_zipinfo_false_eq_finish]
    rw [show (if S_IFMT ((some S_IFDIR).getD 0) = 0 then S_IFREG
        else S_IFMT ((some S_IFDIR).getD 0)) = S_IFDIR from by decide]
    rfl
  refine ⟨?_, ?_, ?_⟩
  · cases isDir
    · simp only [if_false, ite_false, Bool.false_eq_true, hreg path, make_zipinfo_finish_reg]
      simp [Except.map]
    · simp only [if_true, ite_true, hdir, make_zipinfo_finish_dir]
      simp [Except.map]
  · intro d
    rw [hreg (d ++ [str ".secret"]), make_zipinfo_finish_reg]
    have hany : (d ++ [str ".secret"]).any (fun part => part.head? = some '.') = true := by
      simp [List.any_append, str]
    rw [hany]
    cases ex <;> cases wr <;> simp [Except.map] <;> decide
  · rw [hreg [str "pkg", str "visible.txt"], make_zipinfo_finish_reg]
    have hany : ([str "pkg", str "visible.txt"]).any
        (fun part => part.head? = some '.') = false := by decide
    rw [hany]
    cases ex <;> cases wr <;> simp [Except.map] <;> decide


/-! ### Order properties of the case-insensitive sort key -/

theorem lexLe_refl (a : Str) : lexLe a a = true := by
  induction a with
  | nil => rfl
  | cons x xs ih => simp [lexLe, ih]

theorem lexLe_trans : ∀ {a b c : Str}, lexLe a b = true → lexLe b c = true → lexLe a c = true := by
  intro a
  induction a with
  | nil => intro b c _ _; rfl
  | cons x xs ih =>
    intro b c hab hbc
    cases b with
    | nil => simp [lexLe] at hab
    | cons y ys =>
      cases c with
      | nil => simp [lexLe] at hbc
      | cons z zs =>
        simp only [lexLe] at hab hbc ⊢
        by_cases hxy : x = y
        · subst hxy
          rw [if_pos rfl] at hab
          by_cases hxz : x = z
          · subst hxz
            rw [if_pos rfl] at hbc ⊢
            exact ih hab hbc
          · rw [if_neg hxz] at hbc ⊢
            exact hbc
        · rw [if_neg hxy] at hab
          have hlt : x < y := of_decide_eq_true hab
          by_cases hyz : y = z
          · subst hyz
            rw [if_neg hxy]
            exact hab
          · have hlt2 : y < z := of_decide_eq_true (by rwa [if_neg hyz] at hbc)
            have hxz : x < z := lt_trans hlt hlt2
            rw [if_neg (ne_of_lt hxz)]
            exact decide_eq_true hxz

theorem lexLe_total (a b : Str) : (lexLe a b || lexLe b a) = true := by
  induction a generalizing b with
  | nil => simp [lexLe]
  | cons x xs ih =>
    cases b with
    | nil => simp [lexLe]
    | cons y ys =>
      simp only [lexLe]
      by_cases hxy : x = y
      · subst hxy
        simpa using ih ys
      · rw [if_neg hxy, if_neg (Ne.symm hxy)]
        rcases lt_or_gt_of_ne hxy with h | h
        · simp [h]
        · simp [h]

theorem lexLe_antisymm : ∀ {a b : Str}, lexLe a b = true → lexLe b a = true → a = b := by
  intro a
  induction a with
  | nil =>
    intro b _ hba
    cases b with
    | nil => rfl
    | cons y ys => simp [lexLe] at hba
  | cons x xs ih =>
    intro b hab hba
    cases b with
    | nil => simp [lexLe] at hab
    | cons y ys =>
      simp only [lexLe] at hab hba
      by_cases hxy : x = y
      · subst hxy
        rw [if_pos rfl] at hab hba
        rw [ih hab hba]
      · rw [if_neg hxy] at hab
        rw [if_neg (Ne.symm hxy)] at hba
        have h1 : x < y := of_decide_eq_true hab
        have h2 : y < x := of_decide_eq_true hba
        exact absurd h2 (not_lt_of_gt h1)

theorem byNameLe_trans {β : Type} (a b c : Str × β)
    (h1 : byNameLe a b = true) (h2 : byNameLe b c = true) : byNameLe a c = true :=
  lexLe_trans h1 h2

theorem byNameLe_total {β : Type} (a b : Str × β) : (byNameLe a b || byNameLe b a) = true :=
  lexLe_total _ _

/-- The strict order on casefolded keys used to identify sorted outputs. -/
theorem strictKeyLt_antisymm :
    IsAntisymm Str (fun a b => lexLe a b = true ∧ a ≠ b) :=
  ⟨fun a b h1 h2 => lexLe_antisymm h1.1 h2.1⟩

theorem forall₂_exists_left {α β : Type} {R : α → β → Prop} :
    ∀ {l1 : List α} {l2 : List β}, List.Forall₂ R l1 l2 → ∀ b ∈ l2, ∃ a ∈ l1, R a b := by
  intro l1 l2 h
  induction h with
  | nil => intro b hb; cases hb
  | cons hr _ ih =>
    intro b hb
    rcases List.mem_cons.mp hb with rfl | hb
    · exact ⟨_, List.mem_cons_self _ _, hr⟩
    · rcases ih b hb with ⟨a, ha, har⟩
      exact ⟨a, List.mem_cons_of_mem _ ha, har⟩

theorem forall₂_map_fst_eq {β : Type} {R : β → β → Prop} :
    ∀ {l1 l2 : List (Str × β)},
      List.Forall₂ (fun a b => a.1 = b.1 ∧ R a.2 b.2) l1 l2 →
      l1.map (fun e => casefold e.1) = l2.map (fun e => casefold e.1) := by
  intro l1 l2 h
  induction h with
  | nil => rfl
  | cons hr _ ih => simp [hr.1, ih]

theorem forall₂_of_map_eq_of_mem {α K : Type} {R : α → α → Prop} (key : α → K) :
    ∀ (u v : List α), u.map key = v.map key →
      (∀ a ∈ u, ∀ b ∈ v, key a = key b → R a b) → List.Forall₂ R u v := by
  intro u
  induction u with
  | nil =>
    intro v hmap _
    cases v with
    | nil => exact List.Forall₂.nil
    | cons b v' => simp at hmap
  | cons a u' ih =>
    intro v hmap hpt
    cases v with
    | nil => simp at hmap
    | cons b v' =>
      simp only [List.map_cons, List.cons.injEq] at hmap
      refine List.Forall₂.cons
        (hpt a (List.mem_cons_self _ _) b (List.mem_cons_self _ _) hmap.1) ?_
      exact ih v' hmap.2 (fun x hx y hy hxy =>
        hpt x (List.mem_cons_of_mem _ hx) y (List.mem_cons_of_mem _ hy) hxy)

/-- Keys of a `byNameLe`-mergeSorted list are sorted under `lexLe`. -/
theorem sorted_keys_of_mergeSort {β : Type} (l : List (Str × β)) :
    List.Pairwise (fun ka kb : Str => lexLe ka kb = true)
      ((l.mergeSort byNameLe).map (fun e => casefold e.1)) := by
  rw [List.pairwise_map]
  exact List.sorted_mergeSort (fun a b c => byNameLe_trans a b c)
    (fun a b => byNameLe_total a b) l

/-- With pairwise-distinct casefolded keys, the sorted key sequence is
strictly sorted, hence uniquely determined by the key multiset. -/
theorem mergeSort_keys_eq {β β' : Type} (l1 : List (Str × β)) (l2 : List (Str × β'))
    (hperm : (l1.map (fun e => casefold e.1)).Perm (l2.map (fun e => casefold e.1)))
    (hnd : (l1.map (fun e => casefold e.1)).Nodup) :
    (l1.mergeSort byNameLe).map (fun e => casefold e.1)
      = (l2.mergeSort byNameLe).map (fun e => casefold e.1) := by
  haveI := strictKeyLt_antisymm
  have hp1 : ((l1.mergeSort byNameLe).map (fun e => casefold e.1)).Perm
      (l1.map (fun e => casefold e.1)) := (List.mergeSort_perm l1 byNameLe).map _
  have hp2 : ((l2.mergeSort byNameLe).map (fun e => casefold e.1)).Perm
      (l2.map (fun e => casefold e.1)) := (List.mergeSort_perm l2 byNameLe).map _
  have hnd1 : ((l1.mergeSort byNameLe).map (fun e => casefold e.1)).Nodup :=
    hp1.nodup_iff.mpr hnd
  have hnd2 : ((l2.mergeSort byNameLe).map (fun e => casefold e.1)).Nodup :=
    hp2.nodup_iff.mpr ((hperm.nodup_iff).mp hnd)
  refine List.eq_of_perm_of_sorted
    (r := fun a b => lexLe a b = true ∧ a ≠ b)
    (hp1.trans (hperm.trans hp2.symm)) ?_ ?_
  · exact List.Pairwise.and (sorted_keys_of_mergeSort l1) hnd1
  · exact List.Pairwise.and (sorted_keys_of_mergeSort l2) hnd2

/-- Sorting commutes, up to pointwise relatedness, with permutation plus
pointwise alignment, provided keys are pairwise distinct. -/
theorem mergeSort_forall₂_of_perm {β : Type} (R : β → β → Prop)
    (l1 m l2 : List (Str × β)) (hp : l1.Perm m)
    (ha : List.Forall₂ (fun a b => a.1 = b.1 ∧ R a.2 b.2) m l2)
    (hnd : (l1.map (fun e => casefold e.1)).Nodup) :
    List.Forall₂ (fun a b => a.1 = b.1 ∧ R a.2 b.2)
      (l1.mergeSort byNameLe) (l2.mergeSort byNameLe) := by
  have hkeys : (l1.map (fun e => casefold e.1)).Perm (l2.map (fun e => casefold e.1)) :=
    (hp.map _).trans (by rw [forall₂_map_fst_eq ha])
  have hmapeq := mergeSort_keys_eq l1 l2 hkeys hnd
  refine forall₂_of_map_eq_of_mem (fun e => casefold e.1) _ _ hmapeq ?_
  intro a hma b hmb hab
  have hal1 : a ∈ l1 := List.mem_mergeSort.mp hma
  have hbl2 : b ∈ l2 := List.mem_mergeSort.mp hmb
  rcases forall₂_exists_left ha b hbl2 with ⟨a', ha'm, ha'r⟩
  have ha'l1 : a' ∈ l1 := hp.mem_iff.mpr ha'm
  have hab' : casefold a.1 = casefold b.1 := hab
  have hkey : casefold a'.1 = casefold a.1 := by rw [ha'r.1, ← hab']
  have : a' = a := List.inj_on_of_nodup_map hnd ha'l1 hal1 hkey
  rwa [← this]

theorem mergeSort_eq_of_perm {β : Type} (l1 l2 : List (Str × β)) (hp : l1.Perm l2)
    (hnd : (l1.map (fun e => casefold e.1)).Nodup) :
    l1.mergeSort byNameLe = l2.mergeSort byNameLe := by
  have h := mergeSort_forall₂_of_perm (R := fun a b => a = b) l1 l2 l2 hp
    (List.forall₂_same.mpr (fun x _ => ⟨rfl, rfl⟩)) hnd
  have h2 : List.Forall₂ (fun a b : Str × β => a = b)
      (l1.mergeSort byNameLe) (l2.mergeSort byNameLe) :=
    h.imp (fun {a b} hab => Prod.ext hab.1 hab.2)
  rw [List.forall₂_eq_eq_eq] at h2
  exact h2

/-! ### Relaxed-mode evaluation of the tree walk -/

theorem fileZinfo_file (tz : Int) (isDI : Bool) (p : List Str) (mt : Int) (ex wr : Bool) :
    fileZinfo ⟨false, tz⟩ isDI p (.file mt ex wr)
      = .ok (fileZinfoOk tz isDI p (.file mt ex wr)) := by
  have htyp : S_IFMT ((some S_IFREG).getD 0) = S_IFDIR ∨ S_IFMT ((some S_IFREG).getD 0) = S_IFREG
      ∨ S_IFMT ((some S_IFREG).getD 0) = 0 := Or.inr (Or.inl (by decide))
  cases isDI <;> simp [fileZinfo, fileZinfoOk, make_zipinfo_relaxed _ _ _ _ _ _ _ htyp]

theorem mapM_ok_of_forall {α β : Type} (f : α → Except Str β) (g : α → β) :
    ∀ (l : List α), (∀ e ∈ l, f e = .ok (g e)) → l.mapM f = .ok (l.map g) := by
  intro l h
  induction l with
  | nil => rfl
  | cons a l ih =>
    rw [List.mapM_cons, h a (List.mem_cons_self _ _),
      ih (fun e he => h e (List.mem_cons_of_mem _ he))]
    rfl

theorem ok_bind {α β : Type} (x : α) (f : α → Except Str β) :
    (Except.ok x : Except Str α) >>= f = f x := rfl

mutual
theorem collect_relaxed (tz : Int) (rel : List Str) (c : List (Str × FSTree)) :
    collectTreeInfo ⟨false, tz⟩ rel c = .ok (collectOk tz rel c) := by
  have htyp : S_IFMT ((some S_IFDIR).getD 0) = S_IFDIR ∨ S_IFMT ((some S_IFDIR).getD 0) = S_IFREG
      ∨ S_IFMT ((some S_IFDIR).getD 0) = 0 := Or.inl (by decide)
  have hfiles : (c.filter entryIsFile).mapM
      (fun e => do
        let z ← fileZinfo ⟨false, tz⟩ (relIsDistInfo rel) (rel ++ [e.1]) e.2
        pure (e.1, z))
      = .ok ((c.filter entryIsFile).map
          (fun e => (e.1, fileZinfoOk tz (relIsDistInfo rel) (rel ++ [e.1]) e.2))) := by
    apply mapM_ok_of_forall
    intro e he
    have hef : entryIsFile e = true := (List.mem_filter.mp he).2
    match e, hef with
    | (n, .file mt ex wr), _ =>
      rw [fileZinfo_file]
      rfl
  have hsub := collectSubdirs_relaxed tz rel ((c.filter entryIsDir).mergeSort byNameLe)
  rw [collectTreeInfo, collectOk, make_zipinfo_relaxed _ _ _ _ _ _ _ htyp]
  simp only [ok_bind, hfiles, hsub]
  rfl
termination_by (sizeOf c, 1)
decreasing_by
  have h1 := (List.mergeSort_perm (c.filter entryIsDir) byNameLe).sizeOf_eq_sizeOf
  have h2 := sizeOf_filter_le entryIsDir c
  have h3 : sizeOf ((c.filter entryIsDir).mergeSort byNameLe) ≤ sizeOf c := by omega
  rcases lt_or_eq_of_le h3 with h | h
  · exact Prod.Lex.left _ _ h
  · rw [h]; exact Prod.Lex.right _ (by omega)

theorem collectSubdirs_relaxed (tz : Int) (rel : List Str) (l : List (Str × FSTree)) :
    collectSubdirs ⟨false, tz⟩ rel l = .ok (collectOkList tz rel l) := by
  match l with
  | [] =>
    rw [collectSubdirs, collectOkList]
    rfl
  | (n, t) :: rest =>
    rw [collectSubdirs, collectOkList, collect_relaxed tz (rel ++ [n]) t.children,
      collectSubdirs_relaxed tz rel rest]
    rfl
termination_by (sizeOf l, 0)
decreasing_by
  all_goals
    have h1 := FSTree.sizeOf_children_lt n t
    simp only [Prod.mk.sizeOf_spec] at h1
  · apply Prod.Lex.left
    simp only [List.cons.sizeOf_spec, Prod.mk.sizeOf_spec]
    omega
  · apply Prod.Lex.left
    simp only [List.cons.sizeOf_spec, Prod.mk.sizeOf_spec]
    omega
end

/-! ### Enumeration-order invariance of the tree walk -/

theorem aligned_filter_file_eq : ∀ {u v : List (Str × FSTree)}, EntriesAligned u v →
    u.filter entryIsFile = v.filter entryIsFile := by
  intro u
  induction u with
  | nil => intro v h; cases h; rfl
  | cons e u' ih =>
    intro v h
    cases h with
    | cons n t t' r r' htp hrest =>
      rw [List.filter_cons, List.filter_cons]
      have hf : entryIsFile (n, t') = entryIsFile (n, t) := by cases htp <;> rfl
      rw [hf]
      cases hft : entryIsFile (n, t) with
      | true =>
        have ht' : t' = t := by
          cases htp with
          | file => rfl
          | symlink => simp [entryIsFile] at hft
          | dir => simp [entryIsFile] at hft
        rw [ht', ih hrest]
      | false => exact ih hrest

theorem aligned_filter_dir : ∀ {u v : List (Str × FSTree)}, EntriesAligned u v →
    EntriesAligned (u.filter entryIsDir) (v.filter entryIsDir) := by
  intro u
  induction u with
  | nil => intro v h; cases h; exact EntriesAligned.nil
  | cons e u' ih =>
    intro v h
    cases h with
    | cons n t t' r r' htp hrest =>
      rw [List.filter_cons, List.filter_cons]
      have hf : entryIsDir (n, t') = entryIsDir (n, t) := by cases htp <;> rfl
      rw [hf]
      cases hft : entryIsDir (n, t) with
      | true => exact EntriesAligned.cons n t t' _ _ htp (ih hrest)
      | false => exact ih hrest

theorem aligned_forall₂ : ∀ {u v : List (Str × FSTree)}, EntriesAligned u v →
    List.Forall₂ (fun a b => a.1 = b.1 ∧ TreePerm a.2 b.2) u v := by
  intro u
  induction u with
  | nil => intro v h; cases h; exact List.Forall₂.nil
  | cons e u' ih =>
    intro v h
    cases h with
    | cons n t t' r r' htp hrest => exact List.Forall₂.cons ⟨rfl, htp⟩ (ih hrest)

theorem keysOkList_mem : ∀ {c : List (Str × FSTree)}, keysOkList c = true →
    ∀ e ∈ c, keysOk e.2 = true := by
  intro c
  induction c with
  | nil => intro _ e he; cases he
  | cons a c' ih =>
    intro h e he
    obtain ⟨n, t⟩ := a
    rw [keysOkList, Bool.and_eq_true] at h
    rcases List.mem_cons.mp he with rfl | he'
    · exact h.1
    · exact ih h.2 e he'

theorem rcomm_dtMax_file :
    RightCommutative (fun (dt : Int) (p : Str × ZInfo) => dtMax dt p.2.date_time) := by
  constructor
  intro b a1 a2
  unfold dtMax
  split_ifs <;> omega

theorem rcomm_dtMax_sub {γ : Type} :
    RightCommutative (fun (dt : Int) (p : γ × Int) => dtMax dt p.2) := by
  constructor
  intro b a1 a2
  unfold dtMax
  split_ifs <;> omega

theorem collectOkList_congr (tz : Int) (rel : List Str) :
    ∀ (u v : List (Str × FSTree)),
      List.Forall₂ (fun a b => a.1 = b.1 ∧ TreePerm a.2 b.2) u v →
      (∀ e ∈ u, keysOk e.2 = true) →
      (∀ e ∈ u, ∀ (ch' : List (Str × FSTree)), EntriesRel e.2.children ch' →
         keysOkEntries e.2.children = true → keysOkList e.2.children = true →
         collectOk tz (rel ++ [e.1]) e.2.children = collectOk tz (rel ++ [e.1]) ch') →
      collectOkList tz rel u = collectOkList tz rel v := by
  intro u
  induction u with
  | nil =>
    intro v h _ _
    cases h
    rfl
  | cons e u' ih =>
    intro v h hok hrec
    obtain ⟨n, t⟩ := e
    cases h with
    | cons hab htail =>
      rename_i b v'
      obtain ⟨n', t'⟩ := b
      obtain ⟨hname, htp⟩ := hab
      simp only at hname
      subst hname
      rw [collectOkList, collectOkList]
      have hchild : collectOk tz (rel ++ [n]) t.children
          = collectOk tz (rel ++ [n]) t'.children := by
        cases htp with
        | file => rfl
        | symlink => rfl
        | dir m m' cc ll cc' hp2 hal2 =>
          have hk : keysOk (FSTree.dir m cc) = true :=
            hok (n, .dir m cc) (List.mem_cons_self _ _)
          rw [keysOk, Bool.and_eq_true] at hk
          exact hrec (n, .dir m cc) (List.mem_cons_self _ _) cc' ⟨ll, hp2, hal2⟩ hk.1 hk.2
      rw [hchild,
        ih v' htail (fun e he => hok e (List.mem_cons_of_mem _ he))
          (fun e he => hrec e (List.mem_cons_of_mem _ he))]

/-- Determinism of the walk, at the level of the total companion: two
enumeration orders of the same tree (with case-insensitively distinct
sibling names) produce identical output. -/
theorem collectOk_det (tz : Int) :
    ∀ (N : Nat) (c c' : List (Str × FSTree)), sizeOf c ≤ N →
      EntriesRel c c' → keysOkEntries c = true → keysOkList c = true →
      ∀ rel, collectOk tz rel c = collectOk tz rel c' := by
  intro N
  induction N using Nat.strong_induction_on with
  | _ N ihN =>
    intro c c' hsz hrel hke hkl rel
    obtain ⟨l, hpc, hal⟩ := hrel
    rw [keysOkEntries, Bool.and_eq_true, decide_eq_true_eq, decide_eq_true_eq] at hke
    set isDI := relIsDistInfo rel with hisDI
    -- files: the two filtered lists are permutations with equal elements
    have hfeq : (c.filter entryIsFile).Perm (c'.filter entryIsFile) :=
      (hpc.filter entryIsFile).trans (by rw [aligned_filter_file_eq hal])
    have hfzperm : ((c.filter entryIsFile).map
          (fun e => (e.1, fileZinfoOk tz isDI (rel ++ [e.1]) e.2))).Perm
        ((c'.filter entryIsFile).map
          (fun e => (e.1, fileZinfoOk tz isDI (rel ++ [e.1]) e.2))) :=
      hfeq.map _
    have hndz : (((c.filter entryIsFile).map
          (fun e => (e.1, fileZinfoOk tz isDI (rel ++ [e.1]) e.2))).map
            (fun e => casefold e.1)).Nodup := by
      rw [List.map_map]
      exact hke.1
    have hsort : ((c.filter entryIsFile).map
          (fun e => (e.1, fileZinfoOk tz isDI (rel ++ [e.1]) e.2))).mergeSort byNameLe
        = ((c'.filter entryIsFile).map
          (fun e => (e.1, fileZinfoOk tz isDI (rel ++ [e.1]) e.2))).mergeSort byNameLe :=
      mergeSort_eq_of_perm _ _ hfzperm hndz
    have hdt : ∀ (init : Int),
        List.foldl (fun dt p => dtMax dt p.2.date_time) init
          ((c.filter entryIsFile).map
            (fun e => (e.1, fileZinfoOk tz isDI (rel ++ [e.1]) e.2)))
        = List.foldl (fun dt p => dtMax dt p.2.date_time) init
          ((c'.filter entryIsFile).map
            (fun e => (e.1, fileZinfoOk tz isDI (rel ++ [e.1]) e.2))) := by
      intro init
      exact @List.Perm.foldl_eq _ _ _ _ _ rcomm_dtMax_file hfzperm init
    -- dirs: the two sorted lists are pointwise aligned
    have hdirs : List.Forall₂ (fun a b => a.1 = b.1 ∧ TreePerm a.2 b.2)
        ((c.filter entryIsDir).mergeSort byNameLe)
        ((c'.filter entryIsDir).mergeSort byNameLe) :=
      mergeSort_forall₂_of_perm _ _ _ _ (hpc.filter entryIsDir)
        (aligned_forall₂ (aligned_filter_dir hal)) hke.2
    have hsubs : collectOkList tz rel ((c.filter entryIsDir).mergeSort byNameLe)
        = collectOkList tz rel ((c'.filter entryIsDir).mergeSort byNameLe) := by
      apply collectOkList_congr tz rel _ _ hdirs
      · intro e he
        exact keysOkList_mem hkl e
          (List.mem_of_mem_filter (List.mem_mergeSort.mp he))
      · intro e he ch' hch hke' hkl'
        obtain ⟨n0, t0⟩ := e
        have hec : (n0, t0) ∈ c := List.mem_of_mem_filter (List.mem_mergeSort.mp he)
        have hlt : sizeOf (FSTree.children t0) < sizeOf c := by
          have h1 : sizeOf (FSTree.children t0) < sizeOf (n0, t0) :=
            FSTree.sizeOf_children_lt n0 t0
          have h2 : sizeOf (n0, t0) < sizeOf c := List.sizeOf_lt_of_mem hec
          omega
        exact ihN (sizeOf (FSTree.children t0)) (by omega) (FSTree.children t0) ch' le_rfl
          ⟨_, (hch.choose_spec).1, (hch.choose_spec).2⟩ hke' hkl' (rel ++ [n0])
    rw [collectOk, collectOk, ← hisDI, hsort, hdt, hsubs]

/-- **C1 (counterexample)**: the claim as stated is false.  Two enumeration
orders of the same tree — two sibling files named `A` and `a`, whose names
are distinct but casefold to the same key — make `add_tree` produce
different sequences of archive entries, because Python's stable sort keeps
equal-keyed entries in enumeration order. -/
theorem add_tree_enum_counterexample :
    TreePerm
      (.dir 0 [(str "A", .file 0 true true), (str "a", .file 0 true true)])
      (.dir 0 [(str "a", .file 0 true true), (str "A", .file 0 true true)])
    ∧ add_tree ⟨false, 0⟩ floorDT [str "pkg"]
        (.dir 0 [(str "A", .file 0 true true), (str "a", .file 0 true true)])
      ≠ add_tree ⟨false, 0⟩ floorDT [str "pkg"]
        (.dir 0 [(str "a", .file 0 true true), (str "A", .file 0 true true)]) := by
  constructor
  · exact TreePerm.dir 0 0 _ _ _
      (List.Perm.swap (str "a", FSTree.file 0 true true) (str "A", FSTree.file 0 true true) [])
      (EntriesAligned.cons _ _ _ _ _ (TreePerm.file 0 true true)
        (EntriesAligned.cons _ _ _ _ _ (TreePerm.file 0 true true) EntriesAligned.nil))
  · simp +decide [add_tree, collectTreeInfo, collectSubdirs, make_zipinfo,
      make_zipinfo_finish, fileZinfo, instOfDTArg, minInstant, maxInstant, relIsDistInfo,
      List.mergeSort, byNameLe, casefold, lexLe, dtMax, joinPath, str, List.filter,
      entryIsFile, entryIsDir, Except.bind, bind, pure, Except.pure, fmtLocal,
      List.mapM.loop, S_IFMT, S_IFREG, S_IFDIR, S_ISDIR, epochSecs, daysFromCivil,
      List.merge, List.intercalate, FSTree.children, floorDT, ZInfo.mk.injEq]

/-- **C1 (amended)**: building a source tree is independent of the
filesystem's enumeration order and of on-disk directory timestamps,
*provided that within each directory the file names have pairwise-distinct
casefolds and so do the subdirectory names*: for any two enumeration orders
of such a tree, `add_tree` produces the same sequence of archive entries
(entries are sorted case-insensitively by name at each level, files before
the recursion into subdirectories). -/
theorem add_tree_enum_determinism (tz modified : Int) (root : List Str) (t t' : FSTree)
    (hperm : TreePerm t t') (hok : keysOk t = true) :
    add_tree ⟨false, tz⟩ modified root t = add_tree ⟨false, tz⟩ modified root t' := by
  unfold add_tree
  rw [collect_relaxed, collect_relaxed]
  have hc : collectOk tz root t.children = collectOk tz root t'.children := by
    cases hperm with
    | file => rfl
    | symlink => rfl
    | dir m m' cc ll cc' hp hal =>
      rw [keysOk, Bool.and_eq_true] at hok
      exact collectOk_det tz (sizeOf cc) cc cc' le_rfl ⟨ll, hp, hal⟩ hok.1 hok.2 root
  rw [hc]

/-- Witness for C1 (amended) at a concrete two-level tree enumerated in two
different orders (and with different directory mtimes). -/
theorem add_tree_enum_determinism_witness :
    TreePerm
      (.dir 3 [(str "b", .dir 5 [(str "x", .file 7 true true)]),
               (str "a", .file 9 false true)])
      (.dir 4 [(str "a", .file 9 false true),
               (str "b", .dir 6 [(str "x", .file 7 true true)])])
    ∧ keysOk (.dir 3 [(str "b", .dir 5 [(str "x", .file 7 true true)]),
               (str "a", .file 9 false true)]) = true
    ∧ add_tree ⟨false, 0⟩ floorDT []
        (.dir 3 [(str "b", .dir 5 [(str "x", .file 7 true true)]),
                 (str "a", .file 9 false true)])
      = add_tree ⟨false, 0⟩ floorDT []
        (.dir 4 [(str "a", .file 9 false true),
                 (str "b", .dir 6 [(str "x", .file 7 true true)])]) := by
  have hperm : TreePerm
      (.dir 3 [(str "b", .dir 5 [(str "x", .file 7 true true)]),
               (str "a", .file 9 false true)])
      (.dir 4 [(str "a", .file 9 false true),
               (str "b", .dir 6 [(str "x", .file 7 true true)])]) := by
    refine TreePerm.dir 3 4 _
      [(str "a", .file 9 false true), (str "b", .dir 5 [(str "x", .file 7 true true)])] _
      (List.Perm.swap _ _ []) ?_
    refine EntriesAligned.cons _ _ _ _ _ (TreePerm.file 9 false true) ?_
    refine EntriesAligned.cons _ _ _ _ _ ?_ EntriesAligned.nil
    exact TreePerm.dir 5 6 _ [(str "x", .file 7 true true)] _ (List.Perm.refl _)
      (EntriesAligned.cons _ _ _ _ _ (TreePerm.file 7 true true) EntriesAligned.nil)
  have hok : keysOk (.dir 3 [(str "b", .dir 5 [(str "x", .file 7 true true)]),
      (str "a", .file 9 false true)]) = true := by
    simp +decide [keysOk, keysOkList, keysOkEntries, entryIsFile, entryIsDir,
      casefold, str, List.filter]
  exact ⟨hperm, hok, add_tree_enum_determinism 0 floorDT [] _ _ hperm hok⟩

/-! ### Directory timestamps (C2) -/

theorem dtMax_eq_max (a b : Int) : dtMax a b = max a b := by
  unfold dtMax
  split_ifs <;> omega

theorem rcomm_int_max : RightCommutative (fun a b : Int => max a b) :=
  ⟨fun b a1 a2 => by rw [max_assoc, max_comm a1 a2, ← max_assoc]⟩

theorem foldl_max_le_init : ∀ (l : List Int) (a : Int), a ≤ l.foldl max a := by
  intro l
  induction l with
  | nil => intro a; exact le_refl a
  | cons x l ih =>
    intro a
    exact le_trans (le_max_left a x) (ih (max a x))

theorem foldl_max_mem_le : ∀ (l : List Int) (a : Int), ∀ x ∈ l, x ≤ l.foldl max a := by
  intro l
  induction l with
  | nil => intro a x hx; cases hx
  | cons y l ih =>
    intro a x hx
    rcases List.mem_cons.mp hx with rfl | hx'
    · exact le_trans (le_max_right a x) (foldl_max_le_init l (max a x))
    · exact ih (max a y) x hx'

theorem foldl_max_of_le : ∀ (l : List Int) (a : Int), (∀ x ∈ l, x ≤ a) → l.foldl max a = a := by
  intro l
  induction l with
  | nil => intro a _; rfl
  | cons y l ih =>
    intro a h
    rw [List.foldl_cons, max_eq_left (h y (List.mem_cons_self _ _))]
    exact ih a (fun x hx => h x (List.mem_cons_of_mem _ hx))

theorem foldl_max_max : ∀ (l : List Int) (a b : Int),
    l.foldl max (max a b) = max a (l.foldl max b) := by
  intro l
  induction l with
  | nil => intro a b; rfl
  | cons x l ih =>
    intro a b
    rw [List.foldl_cons, List.foldl_cons, max_assoc, ih]

theorem foldl_max_mem_cons : ∀ (l : List Int) (a : Int), l.foldl max a ∈ a :: l := by
  intro l
  induction l with
  | nil => intro a; exact List.mem_cons_self _ _
  | cons x l ih =>
    intro a
    rw [List.foldl_cons]
    rcases List.mem_cons.mp (ih (max a x)) with h | h
    · rcases max_choice a x with hm | hm <;> rw [h, hm]
      · exact List.mem_cons_self _ _
      · exact List.mem_cons_of_mem _ (List.mem_cons_self _ _)
    · exact List.mem_cons_of_mem _ (List.mem_cons_of_mem _ h)

theorem outFileDTs_nil : outFileDTs [] = [] := rfl

theorem outFileDTs_cons (o : OutDir) (rest : List OutDir) :
    outFileDTs (o :: rest) = o.2.map (fun p => p.2.date_time) ++ outFileDTs rest := by
  simp [outFileDTs]

theorem outFileDTs_append (l1 l2 : List OutDir) :
    outFileDTs (l1 ++ l2) = outFileDTs l1 ++ outFileDTs l2 := by
  simp [outFileDTs]

theorem make_zipinfo_ok_date_time (tz : Int) (p : List Str) (typ0 : Option Nat) (dt : DTArg)
    (a b c : Bool) :
    (make_zipinfo_ok tz p typ0 dt a b c).date_time
      = (clampRelaxed ⟨false, tz⟩ (instOfDTArg ⟨false, tz⟩ dt) + tz * 1000000).fdiv 1000000 :=
  rfl

theorem clampRelaxed_ge_min (w : WheelCfg) (inst : Int) :
    minInstant w ≤ clampRelaxed w inst := by
  have h1 := minInstant_add_tz w
  have h2 := maxInstant_add_tz w
  unfold clampRelaxed
  split_ifs <;> omega

theorem floorDT_le_make_zipinfo_ok (tz : Int) (p : List Str) (typ0 : Option Nat) (dt : DTArg)
    (a b c : Bool) : floorDT ≤ (make_zipinfo_ok tz p typ0 dt a b c).date_time := by
  rw [make_zipinfo_ok_date_time]
  have h1 := minInstant_add_tz (⟨false, tz⟩ : WheelCfg)
  have h2 := clampRelaxed_ge_min (⟨false, tz⟩ : WheelCfg) (instOfDTArg ⟨false, tz⟩ dt)
  have h3 : (315532800 * 1000000 : Int)
      ≤ clampRelaxed ⟨false, tz⟩ (instOfDTArg ⟨false, tz⟩ dt) + tz * 1000000 := by
    simp only [WheelCfg.tzSec] at h1
    omega
  have h4 : ((315532800 * 1000000 : Int)).fdiv 1000000
      ≤ (clampRelaxed ⟨false, tz⟩ (instOfDTArg ⟨false, tz⟩ dt) + tz * 1000000).fdiv 1000000 := by
    rw [Int.fdiv_eq_ediv _ (by norm_num), Int.fdiv_eq_ediv _ (by norm_num)]
    exact Int.ediv_le_ediv (by norm_num) h3
  calc floorDT = ((315532800 * 1000000 : Int)).fdiv 1000000 := by decide
    _ ≤ _ := h4

theorem make_zipinfo_ok_noneArg_date_time (tz : Int) (p : List Str) (typ0 : Option Nat)
    (a b c : Bool) : (make_zipinfo_ok tz p typ0 .noneArg a b c).date_time = floorDT := by
  rw [make_zipinfo_ok_date_time]
  have hinst : instOfDTArg ⟨false, tz⟩ .noneArg = minInstant ⟨false, tz⟩ := rfl
  have h1 := minInstant_add_tz (⟨false, tz⟩ : WheelCfg)
  have h2 := maxInstant_add_tz (⟨false, tz⟩ : WheelCfg)
  have hclamp : clampRelaxed ⟨false, tz⟩ (instOfDTArg ⟨false, tz⟩ .noneArg)
      = minInstant ⟨false, tz⟩ := by
    rw [hinst]
    unfold clampRelaxed
    split_ifs <;> omega
  rw [hclamp]
  simp only [WheelCfg.tzSec] at h1
  rw [show minInstant ⟨false, tz⟩ + tz * 1000000 = 315532800 * 1000000 from h1]
  decide

theorem fileZinfoOk_dt_ge (tz : Int) (isDI : Bool) (p : List Str) (t : FSTree) :
    floorDT ≤ (fileZinfoOk tz isDI p t).date_time := by
  cases t with
  | file mt ex wr =>
    show floorDT ≤ (if isDI then make_zipinfo_ok tz p (some S_IFREG) .noneArg true true true
      else make_zipinfo_ok tz p (some S_IFREG) (.timestamp mt) true ex wr).date_time
    split <;> exact floorDT_le_make_zipinfo_ok ..
  | dir m c => exact floorDT_le_make_zipinfo_ok ..
  | symlink => exact floorDT_le_make_zipinfo_ok ..

theorem fileZinfoOk_dt_DI (tz : Int) (p : List Str) (t : FSTree) :
    (fileZinfoOk tz true p t).date_time = floorDT := by
  cases t <;> simp [fileZinfoOk, make_zipinfo_ok_noneArg_date_time]

theorem collectOkList_eq_map (tz : Int) (rel : List Str) :
    ∀ (u : List (Str × FSTree)),
      collectOkList tz rel u = u.map (fun e => collectOk tz (rel ++ [e.1]) e.2.children) := by
  intro u
  induction u with
  | nil => rw [collectOkList]; rfl
  | cons e u' ih =>
    obtain ⟨n, t⟩ := e
    rw [collectOkList, ih]
    rfl

/-- Folding the per-subtree maxima equals folding over the concatenated
per-file timestamps, given each subtree's reported maximum is the fold of
its own file timestamps. -/
theorem foldl_max_flatten :
    ∀ (subl : List (List OutDir × Int)) (A : Int), floorDT ≤ A →
      (∀ r ∈ subl, r.2 = (outFileDTs r.1).foldl max floorDT) →
      subl.foldl (fun a p => max a p.2) A
        = ((subl.map (fun r => outFileDTs r.1)).flatten).foldl max A := by
  intro subl
  induction subl with
  | nil => intro A _ _; rfl
  | cons r subl ih =>
    intro A hA hall
    rw [List.foldl_cons, List.map_cons, List.flatten_cons, List.foldl_append]
    have h1 : (outFileDTs r.1).foldl max A = max A r.2 := by
      rw [hall r (List.mem_cons_self _ _)]
      calc (outFileDTs r.1).foldl max A
          = (outFileDTs r.1).foldl max (max A floorDT) := by rw [max_eq_left hA]
        _ = max A ((outFileDTs r.1).foldl max floorDT) := foldl_max_max _ _ _
    rw [h1]
    exact ih (max A r.2) (le_trans hA (le_max_left _ _))
      (fun x hx => hall x (List.mem_cons_of_mem _ hx))

theorem outFileDTs_flatten : ∀ (L : List (List OutDir)),
    outFileDTs L.flatten = (L.map outFileDTs).flatten := by
  intro L
  induction L with
  | nil => rfl
  | cons o L ih => rw [List.flatten_cons, outFileDTs_append, List.map_cons,
      List.flatten_cons, ih]

theorem relIsDistInfo_append (r0 : Str) (rest : List Str) (n : Str) :
    relIsDistInfo ((r0 :: rest) ++ [n]) = relIsDistInfo (r0 :: rest) := rfl

/-- The reported timestamp of every walk is the maximum (`foldl max`,
seeded with the 1980 floor) of the archived timestamps of the files in its
output; every archived file timestamp is at least the floor; and in a
metadata subtree every archived file timestamp is exactly the floor. -/
theorem collectOk_dt_spec (tz : Int) :
    ∀ (N : Nat) (c : List (Str × FSTree)), sizeOf c ≤ N → ∀ rel,
      (collectOk tz rel c).2
        = (outFileDTs (collectOk tz rel c).1).foldl max floorDT
      ∧ (∀ x ∈ outFileDTs (collectOk tz rel c).1, floorDT ≤ x)
      ∧ (relIsDistInfo rel = true →
          ∀ x ∈ outFileDTs (collectOk tz rel c).1, x = floorDT) := by
  intro N
  induction N using Nat.strong_induction_on with
  | _ N ihN =>
    intro c hsz rel
    have htree : (make_zipinfo_ok tz rel (some S_IFDIR) .noneArg true true true).date_time
        = floorDT := make_zipinfo_ok_noneArg_date_time ..
    set isDI := relIsDistInfo rel with hDI
    set filesZ := (c.filter entryIsFile).map
      (fun e => (e.1, fileZinfoOk tz isDI (rel ++ [e.1]) e.2)) with hfz
    set treeZ := make_zipinfo_ok tz rel (some S_IFDIR) .noneArg true true true with htz
    set dtFiles := if isDI then treeZ.date_time
      else filesZ.foldl (fun dt p => dtMax dt p.2.date_time) treeZ.date_time with hdtF
    set dirs := (c.filter entryIsDir).mergeSort byNameLe with hdirsv
    set sub := collectOkList tz rel dirs with hsubv
    set dtFinal := if isDI then dtFiles
      else sub.foldl (fun dt p => dtMax dt p.2) dtFiles with hdtFin
    have hck : collectOk tz rel c
        = (((if isDI then Sum.inr rel else Sum.inl { treeZ with date_time := dtFinal }),
            filesZ.mergeSort byNameLe) :: (sub.map Prod.fst).flatten, dtFinal) := by
      rw [collectOk]
    rw [hck]
    simp only [outFileDTs_cons, outFileDTs_flatten, List.map_map]
    -- the archived timestamps of this directory's own files
    have hfperm : ((filesZ.mergeSort byNameLe).map (fun p => p.2.date_time)).Perm
        (filesZ.map (fun p => p.2.date_time)) := (List.mergeSort_perm filesZ byNameLe).map _
    have hfilesge : ∀ x ∈ filesZ.map (fun p => p.2.date_time), floorDT ≤ x := by
      intro x hx
      rcases List.mem_map.mp hx with ⟨p, hp, rfl⟩
      rcases List.mem_map.mp (hfz ▸ hp) with ⟨e, _, rfl⟩
      exact fileZinfoOk_dt_ge ..
    have hfilesDI : isDI = true → ∀ x ∈ filesZ.map (fun p => p.2.date_time), x = floorDT := by
      intro hdi x hx
      rcases List.mem_map.mp hx with ⟨p, hp, rfl⟩
      rcases List.mem_map.mp (hfz ▸ hp) with ⟨e, _, rfl⟩
      rw [hdi]
      exact fileZinfoOk_dt_DI ..
    -- the subtree results, via the induction hypothesis
    have hsubmem : ∀ r ∈ sub,
        r.2 = (outFileDTs r.1).foldl max floorDT
        ∧ (∀ x ∈ outFileDTs r.1, floorDT ≤ x)
        ∧ (isDI = true → ∀ x ∈ outFileDTs r.1, x = floorDT) := by
      intro r hr
      rw [hsubv, collectOkList_eq_map] at hr
      rcases List.mem_map.mp hr with ⟨e, he, rfl⟩
      have hec : e ∈ c := List.mem_of_mem_filter (List.mem_mergeSort.mp (hdirsv ▸ he))
      have hlt : sizeOf (FSTree.children e.2) < sizeOf c := by
        obtain ⟨n0, t0⟩ := e
        dsimp only
        have h1 := FSTree.sizeOf_children_lt n0 t0
        have h2 : sizeOf (n0, t0) < sizeOf c := List.sizeOf_lt_of_mem hec
        omega
      have hIH := ihN (sizeOf (FSTree.children e.2)) (by omega) (FSTree.children e.2)
        le_rfl (rel ++ [e.1])
      refine ⟨hIH.1, hIH.2.1, fun hdi => hIH.2.2 ?_⟩
      rw [hDI] at hdi
      cases rel with
      | nil => rw [relIsDistInfo] at hdi; cases hdi
      | cons r0 rest => rw [relIsDistInfo_append, hdi]
    have hallsub_ge : ∀ x ∈ (sub.map (fun r => outFileDTs r.1)).flatten, floorDT ≤ x := by
      intro x hx
      rcases List.mem_flatten.mp hx with ⟨L, hL, hxL⟩
      rcases List.mem_map.mp hL with ⟨r, hr, rfl⟩
      exact ((hsubmem r hr).2.1) x hxL
    have hallsub_DI : isDI = true →
        ∀ x ∈ (sub.map (fun r => outFileDTs r.1)).flatten, x = floorDT := by
      intro hdi x hx
      rcases List.mem_flatten.mp hx with ⟨L, hL, hxL⟩
      rcases List.mem_map.mp hL with ⟨r, hr, rfl⟩
      exact ((hsubmem r hr).2.2 hdi) x hxL
    refine ⟨?_, ?_, ?_⟩
    · -- the reported timestamp is the fold of all archived file timestamps
      cases hdi : isDI with
      | true =>
        rw [hdtFin, hdtF, hdi, if_pos rfl, if_pos rfl, htz, htree]
        rw [List.foldl_append]
        have h1 : ((filesZ.mergeSort byNameLe).map (fun p => p.2.date_time)).foldl
            max floorDT = floorDT := by
          apply foldl_max_of_le
          intro x hx
          rw [(hfilesDI hdi) x (hfperm.mem_iff.mp hx)]
        rw [h1]
        symm
        apply foldl_max_of_le
        intro x hx
        rw [(hallsub_DI hdi) x hx]
      | false =>
        rw [hdtFin, hdtF, hdi]
        simp only [Bool.false_eq_true, if_false]
        rw [List.foldl_append]
        have hdtFiles_eq : filesZ.foldl (fun dt p => dtMax dt p.2.date_time) treeZ.date_time
            = ((filesZ.mergeSort byNameLe).map (fun p => p.2.date_time)).foldl
                max floorDT := by
          rw [@List.Perm.foldl_eq _ _ _ _ _ rcomm_int_max hfperm floorDT]
          simp only [dtMax_eq_max, hfz, List.map_map, List.foldl_map,
            make_zipinfo_ok_noneArg_date_time, Function.comp]
          rw [htree]
        rw [← hdtFiles_eq]
        have hge : floorDT ≤ filesZ.foldl (fun dt p => dtMax dt p.2.date_time)
            treeZ.date_time := by
          rw [hdtFiles_eq]
          exact foldl_max_le_init _ _
        rw [show (fun dt p => dtMax dt (Prod.snd p)) = (fun (a : Int) (p : List OutDir × Int)
            => max a p.2) from funext fun a => funext fun p => dtMax_eq_max a p.2]
        exact foldl_max_flatten sub _ hge (fun r hr => (hsubmem r hr).1)
    · -- every archived file timestamp is at least the floor
      intro x hx
      rcases List.mem_append.mp hx with h | h
      · exact hfilesge x (hfperm.mem_iff.mp h)
      · exact hallsub_ge x h
    · -- in a metadata subtree every archived timestamp is the floor
      intro hdi x hx
      rcases List.mem_append.mp hx with h | h
      · exact (hfilesDI (hDI ▸ hdi)) x (hfperm.mem_iff.mp h)
      · exact (hallsub_DI (hDI ▸ hdi)) x h

/-- **C2**: for every non-metadata directory ingested by the walk, the
archived timestamp equals the maximum archived timestamp over all of its
descendant file entries (the fold of those timestamps from the 1980 floor;
when at least one descendant file exists, it is their maximum), it is the
timestamp carried by the directory's own archive entry, and it never
depends on the directory's own on-disk modification time. -/
theorem directory_timestamp_propagation (tz : Int) (rel : List Str)
    (c : List (Str × FSTree)) (outs : List OutDir) (dt : Int)
    (hrel : relIsDistInfo rel = false)
    (hcol : collectTreeInfo ⟨false, tz⟩ rel c = .ok (outs, dt)) :
    dt = (outFileDTs outs).foldl max floorDT
    ∧ (outFileDTs outs ≠ [] → dt ∈ outFileDTs outs ∧ ∀ x ∈ outFileDTs outs, x ≤ dt)
    ∧ (∃ z fs, outs.head? = some (Sum.inl z, fs) ∧ z.date_time = dt)
    ∧ (∀ m m' mod root, add_tree ⟨false, tz⟩ mod root (.dir m c)
        = add_tree ⟨false, tz⟩ mod root (.dir m' c)) := by
  rw [collect_relaxed] at hcol
  have hpair : collectOk tz rel c = (outs, dt) := Except.ok.inj hcol
  have houts : (collectOk tz rel c).1 = outs := by rw [hpair]
  have hdt : (collectOk tz rel c).2 = dt := by rw [hpair]
  have hspec := collectOk_dt_spec tz (sizeOf c) c le_rfl rel
  refine ⟨?_, ?_, ?_, ?_⟩
  · rw [← houts, ← hdt]
    exact hspec.1
  · intro hne
    have hfold : dt = (outFileDTs outs).foldl max floorDT := by
      rw [← houts, ← hdt]; exact hspec.1
    constructor
    · rcases List.mem_cons.mp (hfold ▸ foldl_max_mem_cons (outFileDTs outs) floorDT)
          with h | h
      · -- the fold equals the floor: every element is then exactly the floor
        rcases List.exists_mem_of_ne_nil _ hne with ⟨y, hy⟩
        have h1 : floorDT ≤ y := by
          rw [← houts] at hy
          exact hspec.2.1 y hy
        have h2 : y ≤ (outFileDTs outs).foldl max floorDT := foldl_max_mem_le _ _ y hy
        have : y = dt := by omega
        rwa [← this]
      · exact h
    · intro x hx
      rw [hfold]
      exact foldl_max_mem_le _ _ x hx
  · have hck : (collectOk tz rel c).1.head?
        = some ((if relIsDistInfo rel then Sum.inr rel
            else Sum.inl { make_zipinfo_ok tz rel (some S_IFDIR) .noneArg true true true with
              date_time := (collectOk tz rel c).2 }),
          ((c.filter entryIsFile).map
            (fun e => (e.1, fileZinfoOk tz (relIsDistInfo rel) (rel ++ [e.1]) e.2))).mergeSort
              byNameLe) := by
      conv =>
        lhs
        rw [collectOk]
      conv =>
        rhs
        rw [collectOk]
      rfl
    refine ⟨{ make_zipinfo_ok tz rel (some S_IFDIR) .noneArg true true true with
        date_time := dt },
      ((c.filter entryIsFile).map
        (fun e => (e.1, fileZinfoOk tz (relIsDistInfo rel) (rel ++ [e.1]) e.2))).mergeSort
          byNameLe, ?_, rfl⟩
    rw [← houts, hck, hrel, hdt]
    simp
  · intro m m' mod root
    rfl

/-- Witness for C2: a directory `a/` containing `a/x` modified at T1 and
`a/sub/y` modified at T2 > T1 is archived with timestamp T2 (here T1 and T2
are 4·10¹⁴ µs and 5·10¹⁴ µs, and the archived timestamp is the epoch-second
rendering 5·10⁸ of T2). -/
theorem directory_timestamp_propagation_witness :
    relIsDistInfo [str "a"] = false
    ∧ collectTreeInfo ⟨false, 0⟩ [str "a"]
        [(str "x", .file 400000000000000 true true),
         (str "sub", .dir 0 [(str "y", .file 500000000000000 true true)])]
      = .ok ((collectOk 0 [str "a"]
        [(str "x", .file 400000000000000 true true),
         (str "sub", .dir 0 [(str "y", .file 500000000000000 true true)])]).1,
        (collectOk 0 [str "a"]
        [(str "x", .file 400000000000000 true true),
         (str "sub", .dir 0 [(str "y", .file 500000000000000 true true)])]).2)
    ∧ (collectOk 0 [str "a"]
        [(str "x", .file 400000000000000 true true),
         (str "sub", .dir 0 [(str "y", .file 500000000000000 true true)])]).2
        = ((outFileDTs (collectOk 0 [str "a"]
            [(str "x", .file 400000000000000 true true),
             (str "sub", .dir 0 [(str "y", .file 500000000000000 true true)])]).1).foldl
              max floorDT)
    ∧ (collectOk 0 [str "a"]
        [(str "x", .file 400000000000000 true true),
         (str "sub", .dir 0 [(str "y", .file 500000000000000 true true)])]).2
        = 500000000 := by
  refine ⟨by decide, by rw [collect_relaxed], ?_, ?_⟩
  · exact (directory_timestamp_propagation 0 [str "a"] _ _ _ (by decide)
      (by rw [collect_relaxed])).1
  · simp +decide [collectOk, collectOkList, make_zipinfo_ok, fileZinfoOk, instOfDTArg,
      clampRelaxed, minInstant, maxInstant, relIsDistInfo, List.mergeSort, byNameLe,
      casefold, lexLe, dtMax, joinPath, str, List.filter, entryIsFile, entryIsDir,
      S_IFMT, S_IFREG, S_IFDIR, S_ISDIR, epochSecs, daysFromCivil, List.merge,
      List.intercalate, FSTree.children, floorDT]

/-- **C10**: during the tree walk, a directory named `__pycache__` is
skipped entirely: inserting one (with arbitrary contents) anywhere among a
directory's entries leaves the walk's entire output — archive entries,
manifest inputs and directory timestamps — unchanged, for `add_tree` as
well. -/
theorem pycache_skipped (w : WheelCfg) (rel : List Str) (c1 c2 : List (Str × FSTree))
    (m : Int) (pyc : List (Str × FSTree)) :
    collectTreeInfo w rel (c1 ++ (str "__pycache__", .dir m pyc) :: c2)
      = collectTreeInfo w rel (c1 ++ c2)
    ∧ (∀ mod root mt,
        add_tree w mod root (.dir mt (c1 ++ (str "__pycache__", .dir m pyc) :: c2))
          = add_tree w mod root (.dir mt (c1 ++ c2))) := by
  have h1 : (c1 ++ (str "__pycache__", FSTree.dir m pyc) :: c2).filter entryIsFile
      = (c1 ++ c2).filter entryIsFile := by
    rw [List.filter_append, List.filter_append, List.filter_cons]
    simp [entryIsFile]
  have h2 : (c1 ++ (str "__pycache__", FSTree.dir m pyc) :: c2).filter entryIsDir
      = (c1 ++ c2).filter entryIsDir := by
    rw [List.filter_append, List.filter_append, List.filter_cons]
    simp [entryIsDir]
  have hmain : ∀ rel', collectTreeInfo w rel' (c1 ++ (str "__pycache__", .dir m pyc) :: c2)
      = collectTreeInfo w rel' (c1 ++ c2) := by
    intro rel'
    rw [collectTreeInfo, collectTreeInfo, h1, h2]
  refine ⟨hmain rel, fun mod root mt => ?_⟩
  unfold add_tree
  rw [show FSTree.children (.dir mt (c1 ++ (str "__pycache__", .dir m pyc) :: c2))
      = c1 ++ (str "__pycache__", .dir m pyc) :: c2 from rfl,
    show FSTree.children (.dir mt (c1 ++ c2)) = c1 ++ c2 from rfl, hmain root]

/-! ### Version derivation (C5–C7) -/

theorem mem_natDigitsAux_digit :
    ∀ (fuel n : Nat) (c : Char), c ∈ natDigitsAux fuel n → 48 ≤ c.toNat ∧ c.toNat ≤ 57 := by
  intro fuel
  induction fuel with
  | zero => intro n c h; cases h
  | succ fuel ih =>
    intro n c h
    rw [natDigitsAux] at h
    split at h
    · rcases List.mem_singleton.mp h with rfl
      rename_i hlt
      interval_cases n <;> decide
    · rcases List.mem_append.mp h with h' | h'
      · exact ih _ c h'
      · rcases List.mem_singleton.mp h' with rfl
        have : n % 10 < 10 := Nat.mod_lt _ (by norm_num)
        interval_cases h10 : n % 10 <;> simp_all <;> decide

theorem mem_natDigits_ne_plus (n : Nat) (c : Char) (h : c ∈ natDigits n) : c ≠ '+' := by
  have := mem_natDigitsAux_digit (n + 1) n c h
  intro hc
  rw [hc] at this
  revert this
  decide

theorem mem_intercalate (c : Char) (sep : Str) :
    ∀ (L : List Str), c ∈ List.intercalate sep L → c ∈ sep ∨ ∃ l ∈ L, c ∈ l := by
  intro L
  induction L with
  | nil => intro h; simp [List.intercalate] at h
  | cons x L ih =>
    intro h
    cases L with
    | nil =>
      simp [List.intercalate] at h
      exact Or.inr ⟨x, List.mem_singleton.mpr rfl, h⟩
    | cons y L' =>
      rw [show List.intercalate sep (x :: y :: L')
          = x ++ sep ++ List.intercalate sep (y :: L') by
        simp [List.intercalate, List.intersperse]] at h
      rcases List.mem_append.mp h with h' | h'
      · rcases List.mem_append.mp h' with h'' | h''
        · exact Or.inr ⟨x, List.mem_cons_self _ _, h''⟩
        · exact Or.inl h''
      · rcases ih h' with h'' | ⟨l, hl, hcl⟩
        · exact Or.inl h''
        · exact Or.inr ⟨l, List.mem_cons_of_mem _ hl, hcl⟩

theorem parseWordNum_norm (ws : List (Str × Str)) (s norm : Str) (n : Nat) (rest : Str)
    (h : parseWordNum ws s = some (norm, n, rest)) : ∃ wp ∈ ws, norm = wp.2 := by
  unfold parseWordNum at h
  cases hf : List.find? (fun wp => wp.1.isPrefixOf (stripSep s)) ws with
  | none => rw [hf] at h; cases h
  | some wp =>
    rw [hf] at h
    refine ⟨wp, List.mem_of_find?_eq_some hf, ?_⟩
    injection h with h1
    exact (congrArg Prod.fst h1).symm

/-- The `pre` component extracted by `parsePre` is absent or one of the
normalized spellings `a`, `b`, `rc`. -/
theorem parsePre_shape (s : Str) :
    (parsePre s).1 = none ∨ ∃ wn, (parsePre s).1 = some wn ∧ wn.1 ∈ [str "a", str "b", str "rc"] := by
  have hall : ∀ wp ∈ preWords, wp.2 ∈ [str "a", str "b", str "rc"] := by decide
  unfold parsePre
  cases hp : parseWordNum preWords s with
  | none => exact Or.inl rfl
  | some t =>
    obtain ⟨nm, k, rst⟩ := t
    obtain ⟨wp, hmem, hn⟩ := parseWordNum_norm _ _ _ _ _ hp
    exact Or.inr ⟨(nm, k), rfl, hn ▸ hall wp hmem⟩

/-- A successfully parsed tail carries exactly the `parsePre` component. -/
theorem parseTail_pre (epoch : Nat) (release : List Nat) (s : Str) (v : VersionS)
    (h : parseTail epoch release s = some v) : v.pre = (parsePre s).1 := by
  unfold parseTail at h
  rcases hpre : parsePre s with ⟨p1, s1⟩
  rw [hpre] at h
  dsimp only at h
  rcases hpost : parsePost s1 with ⟨p2, s2⟩
  rw [hpost] at h
  dsimp only at h
  rcases hdev : parseDev s2 with ⟨p3, s3⟩
  rw [hdev] at h
  dsimp only at h
  split at h
  · cases h; rfl
  · obtain ⟨w, hw, h⟩ := Option.bind_eq_some.mp h
    cases h; rfl
  · cases h

/-- Any parsed version draws its `pre` component from `parsePre`. -/
theorem parseVersion_pre (s0 : Str) (v : VersionS) (h : parseVersion s0 = some v) :
    ∃ t, v.pre = (parsePre t).1 := by
  unfold parseVersion at h
  dsimp only at h
  set s1 := (match s0 with | 'v' :: r => r | _ => s0) with hs1
  rcases he : parseEpoch s1 with ⟨ep, s2⟩
  rw [he] at h
  dsimp only at h
  obtain ⟨⟨rel, s3⟩, hw, h⟩ := Option.bind_eq_some.mp h
  exact ⟨s3, parseTail_pre _ _ _ _ h⟩

/-- The `pre` component of any parsed version is absent or one of the
normalized spellings `a`, `b`, `rc`. -/
theorem parseVersion_pre_shape (s : Str) (v : VersionS) (h : parseVersion s = some v) :
    v.pre = none ∨ ∃ wn, v.pre = some wn ∧ wn.1 ∈ [str "a", str "b", str "rc"] := by
  obtain ⟨t, ht⟩ := parseVersion_pre s v h
  rw [ht]
  exact parsePre_shape t

theorem pySplitP_ne_nil (p : Char → Bool) (s : Str) : pySplitP p s ≠ [] := by
  induction s with
  | nil => simp [pySplitP]
  | cons c rest ih =>
    unfold pySplitP
    cases h : pySplitP p rest with
    | nil => split <;> simp_all
    | cons a t => dsimp only; split <;> simp

theorem pySplitP_no_sep (p : Char → Bool) (s : Str) (h : ∀ c ∈ s, p c = false) :
    pySplitP p s = [s] := by
  induction s with
  | nil => rfl
  | cons c rest ih =>
    have hc : p c = false := h c (List.mem_cons_self c rest)
    have hr := ih (fun x hx => h x (List.mem_cons_of_mem _ hx))
    conv_lhs => rw [pySplitP]
    rw [hr, hc]
    simp

theorem pySplitP_append_sep (p : Char → Bool) (a : Str) (sep : Char) (b : Str)
    (ha : ∀ c ∈ a, p c = false) (hsep : p sep = true) :
    pySplitP p (a ++ sep :: b) = a :: pySplitP p b := by
  induction a with
  | nil =>
    simp only [List.nil_append]
    conv_lhs => rw [pySplitP]
    cases hb : pySplitP p b with
    | nil => exact absurd hb (pySplitP_ne_nil p b)
    | cons h t => rw [hsep]; simp
  | cons c rest ih =>
    have hc : p c = false := ha c (List.mem_cons_self c _)
    have ih2 := ih (fun x hx => ha x (List.mem_cons_of_mem _ hx))
    simp only [List.cons_append]
    conv_lhs => rw [pySplitP]
    rw [ih2, hc]
    simp

theorem removeSuffix_of_not (s suf : Str) (h : suf.isSuffixOf s = false) :
    removeSuffix s suf = s := by
  unfold removeSuffix
  rw [h]
  simp

theorem plus_not_mem_base (v : VersionS) : '+' ∉ base_version v := by
  intro h
  unfold base_version at h
  rcases List.mem_append.mp h with h1 | h2
  · split at h1
    · rcases List.mem_append.mp h1 with hd | hb
      · exact mem_natDigits_ne_plus _ _ hd rfl
      · simp at hb
    · cases h1
  · rcases mem_intercalate _ _ _ h2 with hs | ⟨l, hl, hc⟩
    · simp [str] at hs
    · obtain ⟨n, _, rfl⟩ := List.mem_map.mp hl
      exact mem_natDigits_ne_plus _ _ hc rfl

theorem plus_not_mem_normalized (v : VersionS) (hloc : v.loc = none)
    (hpre : v.pre = none ∨ ∃ wn, v.pre = some wn ∧ wn.1 ∈ [str "a", str "b", str "rc"]) :
    '+' ∉ normalizedVersion v := by
  intro h
  unfold normalizedVersion at h
  rw [hloc] at h
  rcases List.mem_append.mp h with h | h
  · rcases List.mem_append.mp h with h | h
    · rcases List.mem_append.mp h with h | h
      · rcases List.mem_append.mp h with h | h
        · exact plus_not_mem_base v h
        · rcases hpre with hp | ⟨wn, hp, hmem⟩ <;> rw [hp] at h
          · cases h
          · rcases List.mem_append.mp h with h | h
            · simp only [List.mem_cons, List.mem_singleton] at hmem
              rcases hmem with h1 | h1 | h1 | h1
              · rw [h1] at h; simp [str] at h
              · rw [h1] at h; simp [str] at h
              · rw [h1] at h; simp [str] at h
              · cases h1
            · exact mem_natDigits_ne_plus _ _ h rfl
      · cases hp : v.post <;> rw [hp] at h
        · cases h
        · rcases List.mem_append.mp h with h | h
          · simp [str] at h
          · exact mem_natDigits_ne_plus _ _ h rfl
    · cases hd : v.dev <;> rw [hd] at h
      · cases h
      · rcases List.mem_append.mp h with h | h
        · simp [str] at h
        · exact mem_natDigits_ne_plus _ _ h rfl
  · cases h

theorem composeVersion_clean (v : VersionS) (hloc : v.loc = none) :
    composeVersion v 0 false [] = normalizedVersion v := by
  unfold composeVersion normalizedVersion
  rw [hloc]
  cases hp : v.post with
  | none => simp
  | some n => simp


set_option maxHeartbeats 1000000 in
/-- C5: with HEAD on a trunk branch (`main`, `master`, `develop`), a clean
working tree, and `describe` naming exactly a tag (zero commits since) that
parses as a version with no local segment, `get_version_from_git` returns
exactly that tag's normalized version, and the result carries no `+` local
suffix. -/
theorem clean_tag_version (head tag hash : Str) (v : VersionS)
    (hhead : head ∈ trunkNames)
    (hv : parseVersion tag = some v)
    (hloc : v.loc = none)
    (htag1 : ∀ c ∈ tag, c ≠ '/' ∧ c ≠ '-')
    (hhash : ∀ c ∈ hash, c ≠ '/' ∧ c ≠ '-')
    (hclean : (str "-dirty").isSuffixOf (str "tags/" ++ tag ++ str "-0-g" ++ hash) = false) :
    get_version_from_git head (str "tags/" ++ tag ++ str "-0-g" ++ hash)
      = .ok (normalizedVersion v) ∧ '+' ∉ normalizedVersion v := by
  refine ⟨?_, plus_not_mem_normalized v hloc (parseVersion_pre_shape tag v hv)⟩
  have hshape : str "tags/" ++ tag ++ str "-0-g" ++ hash
      = str "tags" ++ '/' :: (tag ++ str "-0-g" ++ hash) := by
    simp [str, List.append_assoc]
  rw [hshape] at hclean ⊢
  have htags1 : ∀ c ∈ str "tags", decide (c = '/') = false := by decide
  have hmid1 : ∀ c ∈ str "-0-g", decide (c = '/') = false := by decide
  have hnosl : ∀ c ∈ tag ++ str "-0-g" ++ hash, decide (c = '/') = false := by
    intro c hc
    rcases List.mem_append.mp hc with hc | hc
    · rcases List.mem_append.mp hc with hc | hc
      · simpa using (htag1 c hc).1
      · exact hmid1 c hc
    · simpa using (hhash c hc).1
  have hsplit : pySplit '/' (str "tags" ++ '/' :: (tag ++ str "-0-g" ++ hash))
      = [str "tags", tag ++ str "-0-g" ++ hash] := by
    unfold pySplit
    rw [pySplitP_append_sep _ _ _ _ htags1 (by decide), pySplitP_no_sep _ _ hnosl]
  have hshape2 : tag ++ str "-0-g" ++ hash
      = tag ++ '-' :: (['0'] ++ '-' :: ('g' :: hash)) := by
    simp [str, List.append_assoc]
  have hrsplit : rsplit2 '-' (tag ++ str "-0-g" ++ hash) = [tag, str "0", 'g' :: hash] := by
    rw [hshape2]
    unfold rsplit2 pySplit
    rw [pySplitP_append_sep _ _ _ _ (fun c hc => by simpa using (htag1 c hc).2) (by decide),
      pySplitP_append_sep _ _ _ _ (by decide) (by decide),
      pySplitP_no_sep _ _ (by
        intro c hc
        simp only [List.mem_cons] at hc
        rcases hc with rfl | hc
        · decide
        · simpa using (hhash c hc).2)]
    rfl
  unfold get_version_from_git
  rw [removeSuffix_of_not _ _ hclean, hclean, hsplit]
  dsimp only
  rw [show List.dropLast [str "tags", tag ++ str "-0-g" ++ hash] = [str "tags"] from rfl]
  rw [show List.getLastD [str "tags", tag ++ str "-0-g" ++ hash] [] = tag ++ str "-0-g" ++ hash from rfl]
  rw [hrsplit]
  dsimp only
  rw [hv]
  dsimp only
  rw [hloc]
  dsimp only
  rw [if_pos (show str "tags" = str "heads" ∨ str "tags" = str "tags" from Or.inr rfl)]
  rw [if_pos hhead]
  rw [show parseNat? (str "0") = some 0 from by decide]
  dsimp only
  simp [Except.bind, bind, pure, Except.pure, composeVersion_clean v hloc]

/-- Witness for C5: HEAD `main`, describe `tags/v1.2.3-0-g1234abc`, clean
tree, yields exactly `1.2.3`. -/
theorem clean_tag_version_witness :
    get_version_from_git (str "main") (str "tags/v1.2.3-0-g1234abc") = .ok (str "1.2.3")
    ∧ '+' ∉ str "1.2.3" := by
  have h := clean_tag_version (str "main") (str "v1.2.3") (str "1234abc")
      ⟨0, [1, 2, 3], none, none, none, none⟩ (by decide) (by decide) rfl
      (by decide) (by decide) (by decide)
  rw [show str "tags/" ++ str "v1.2.3" ++ str "-0-g" ++ str "1234abc"
      = str "tags/v1.2.3-0-g1234abc" from by decide] at h
  rw [show normalizedVersion ⟨0, [1, 2, 3], none, none, none, none⟩ = str "1.2.3" from by decide] at h
  exact h

set_option maxHeartbeats 1000000 in
/-- C6: three commits past tag `v1.2.3` on branch `feature-x` with a dirty
tree yields `1.2.3.post3+feature-x.g1234abc.dirty`; in general, right after
the base-version-plus-pre prefix of the composed version the `.postN`
component appears exactly when commits-since is nonzero, the tree is dirty,
or the parsed version already carried a post marker, with
`N = v.post.getD 0 + post`. -/
theorem drift_version :
    get_version_from_git (str "feature-x") (str "tags/v1.2.3-3-g1234abc-dirty")
      = .ok (str "1.2.3.post3+feature-x.g1234abc.dirty")
    ∧ ∀ (v : VersionS) (post : Nat) (dirty : Bool) (locs : List Str),
        ∃ tail, composeVersion v post dirty locs
            = base_version v
              ++ (match v.pre with | some (w, n) => w ++ natDigits n | none => [])
              ++ tail
          ∧ ((post ≠ 0 ∨ dirty = true ∨ v.post ≠ none) →
              tail.take (5 + (natDigits (v.post.getD 0 + post)).length)
                = str ".post" ++ natDigits (v.post.getD 0 + post))
          ∧ (¬(post ≠ 0 ∨ dirty = true ∨ v.post ≠ none) → tail.take 5 ≠ str ".post") := by
  constructor
  · decide
  · intro v post dirty locs
    refine ⟨(if post ≠ 0 ∨ dirty = true ∨ v.post ≠ none then
          str ".post" ++ natDigits (v.post.getD 0 + post) else [])
        ++ (match v.dev with | some n => str ".dev" ++ natDigits n | none => [])
        ++ (if locs ≠ [] then '+' :: List.intercalate (str ".") locs else []), ?_, ?_, ?_⟩
    · unfold composeVersion
      simp [List.append_assoc]
    · intro hc
      rw [if_pos hc]
      rw [List.append_assoc]
      rw [show (5 : Nat) + (natDigits (v.post.getD 0 + post)).length
          = (str ".post" ++ natDigits (v.post.getD 0 + post)).length from by simp [str]; omega]
      exact List.take_left _ _
    · intro hc
      rw [if_neg hc]
      cases hd : v.dev with
      | some n => simp [str, List.take]
      | none =>
        by_cases hl : locs = []
        · simp [hl, str]
        · simp [hl, str, List.take]

/-- Witness for C6: `v1.2.3.post2`, 3 commits since, dirty: the `.post5`
component follows the base version. -/
theorem drift_version_witness :
    ∃ tail, composeVersion ⟨0, [1, 2, 3], none, some 2, none, none⟩ 3 true [str "x"]
        = base_version ⟨0, [1, 2, 3], none, some 2, none, none⟩ ++ tail
      ∧ tail.take (5 + (natDigits 5).length) = str ".post" ++ natDigits 5 := by
  obtain ⟨tail, h1, h2, h3⟩ :=
    drift_version.2 ⟨0, [1, 2, 3], none, some 2, none, none⟩ 3 true [str "x"]
  refine ⟨tail, ?_, ?_⟩
  · simpa using h1
  · exact h2 (by decide)

/-- `rsplit2` always returns at least one part. -/
theorem rsplit2_ne_nil (sep : Char) (s : Str) : rsplit2 sep s ≠ [] := by
  unfold rsplit2
  dsimp only
  split
  · exact pySplitP_ne_nil _ _
  · simp

/-- A string without a dash cannot end in `-dirty`. -/
theorem not_dirty_of_no_dash (s : Str) (h : ∀ c ∈ s, c ≠ '-') :
    (str "-dirty").isSuffixOf s = false := by
  cases hs : (str "-dirty").isSuffixOf s with
  | false => rfl
  | true =>
    have hsuf : str "-dirty" <:+ s := List.isSuffixOf_iff_suffix.mp hs
    have : '-' ∈ s := hsuf.subset (by decide)
    exact absurd rfl (h '-' this)

set_option maxHeartbeats 1000000 in
/-- C7 (amended): when `describe` is a bare abbreviated commit id (no `/`,
no `-`), `get_version_from_git` does not raise: it returns `0.0+g<hash>`
via the one-element `rsplit` arm; the `NotImplementedError` arm is
unreachable for every input, since `rsplit` always yields a part. -/
theorem bare_commit_version (head describe : Str)
    (hd : ∀ c ∈ describe, c ≠ '/' ∧ c ≠ '-') :
    get_version_from_git head describe = .ok (str "0.0+g" ++ describe)
    ∧ ∀ h d, get_version_from_git h d ≠ .error (str "NotImplementedError") := by
  constructor
  · have hdirty : (str "-dirty").isSuffixOf describe = false :=
      not_dirty_of_no_dash describe (fun c hc => (hd c hc).2)
    have hsplit : pySplit '/' describe = [describe] := by
      unfold pySplit
      exact pySplitP_no_sep _ _ (fun c hc => by simpa using (hd c hc).1)
    have hrsplit : rsplit2 '-' describe = [describe] := by
      unfold rsplit2 pySplit
      rw [pySplitP_no_sep _ _ (fun c hc => by simpa using (hd c hc).2)]
      rfl
    unfold get_version_from_git
    rw [removeSuffix_of_not _ _ hdirty, hdirty, hsplit]
    dsimp only
    rw [show List.getLastD [describe] [] = describe from rfl,
      show List.dropLast [describe] = [] from rfl]
    rw [hrsplit]
    dsimp only
    simp only [Bool.false_eq_true, if_false, ite_false]
    simp [pure, Except.pure, composeVersion, VERSION0, base_version, natDigits, natDigitsAux,
      List.intercalate, str]
  · intro hh dd hcon
    unfold get_version_from_git at hcon
    dsimp only at hcon
    rcases hr : rsplit2 '-' ((pySplit '/' (removeSuffix dd (str "-dirty"))).getLastD [])
        with _ | ⟨c1, _ | ⟨c2, _ | ⟨c3, _ | _⟩⟩⟩
    all_goals rw [hr] at hcon
    · exact rsplit2_ne_nil _ _ hr
    · simp [pure, Except.pure] at hcon
    · simp [pure, Except.pure] at hcon
    · dsimp only at hcon
      rcases hp : parseNat? c2 with _ | n <;> rw [hp] at hcon
      · simp only [bind, Except.bind] at hcon
        exact absurd (Except.error.inj hcon) (by decide)
      · simp [pure, Except.pure, bind, Except.bind] at hcon
    · simp [pure, Except.pure] at hcon

/-- C7 counterexample: on a bare commit id the claim says the derivation
raises; in fact it returns `0.0+g1234abc`. -/
theorem bare_commit_counterexample :
    get_version_from_git (str "main") (str "1234abc") = .ok (str "0.0+g1234abc") := by decide

/-- Witness for C7's amended theorem at concrete inputs. -/
theorem bare_commit_version_witness :
    get_version_from_git (str "main") (str "abc123") = .ok (str "0.0+gabc123")
    ∧ get_version_from_git (str "dev") (str "xyz") ≠ .error (str "NotImplementedError") := by
  have h := bare_commit_version (str "main") (str "abc123") (by decide)
  refine ⟨?_, h.2 (str "dev") (str "xyz")⟩
  rw [show str "0.0+g" ++ str "abc123" = str "0.0+gabc123" from by decide] at h
  exact h.1


/-- `fromutc` in closed form: local naive seconds are the instant plus the
offset in effect, and `fold` is set exactly inside the one-hour fall-back
window `[T, T+3600)`. -/
theorem fromutc_eq (z : FBZone) (s : Int) :
    fromutc z s = (s + loOff z s, decide (z.T ≤ s ∧ s < z.T + 3600)) := by
  by_cases h : s < z.T
  · have hd : loIsDst z s = true := by simp [loIsDst, h]
    have ho : loOff z s = z.stdOff + 3600 := if_pos h
    unfold fromutc mktimeFlag
    rw [hd, ho]
    simp only [Bool.not_true, Bool.false_eq_true, if_false, ite_false]
    rw [if_pos (by omega : s + (z.stdOff + 3600) - z.stdOff ≥ s)]
    refine congrArg _ ?_
    symm
    simp only [decide_eq_false_iff_not]
    omega
  · have hd : loIsDst z s = false := by simp [loIsDst]; omega
    have ho : loOff z s = z.stdOff := if_neg h
    unfold fromutc mktimeFlag
    rw [hd, ho]
    simp only [Bool.not_false, if_true, ite_true]
    rw [if_neg (by omega : ¬ s + z.stdOff - (z.stdOff + 3600) ≥ s)]
    refine congrArg _ ?_
    by_cases h2 : s + z.stdOff - (z.stdOff + 3600) < z.T
    · rw [show loOff z (s + z.stdOff - (z.stdOff + 3600)) = z.stdOff + 3600 from if_pos h2]
      simp only [decide_eq_decide]
      omega
    · rw [show loOff z (s + z.stdOff - (z.stdOff + 3600)) = z.stdOff from if_neg h2]
      simp only [decide_eq_decide]
      omega

/-- `SystemTZ._mktime` in closed form: the DST interpretation when only it
is consistent, the standard one when only it is, and the `fold` flag
selects between the two interpretations when the naive time is ambiguous. -/
theorem SystemTZ_mktime_eq (z : FBZone) (naive : Int) (fold : Bool) :
    SystemTZ_mktime z naive fold =
      if naive - z.stdOff - 3600 < z.T then
        (if z.T ≤ naive - z.stdOff then
          (if fold then naive - z.stdOff else naive - z.stdOff - 3600)
         else naive - z.stdOff - 3600)
      else naive - z.stdOff := by
  by_cases hA : naive - (z.stdOff + 3600) < z.T
  · have hsecs : mktimeAuto z naive = naive - (z.stdOff + 3600) := if_pos hA
    unfold SystemTZ_mktime
    rw [hsecs]
    dsimp only
    rw [show loOff z (naive - (z.stdOff + 3600)) = z.stdOff + 3600 from if_pos hA]
    rw [show loIsDst z (naive - (z.stdOff + 3600)) = true from by simp [loIsDst, hA]]
    simp only [Bool.not_true, Bool.false_eq_true, if_false, ite_false, mktimeFlag]
    rw [if_neg (by omega : ¬ naive - (z.stdOff + 3600) + (z.stdOff + 3600) - z.stdOff
        = naive - (z.stdOff + 3600))]
    by_cases hB : naive - (z.stdOff + 3600) + (z.stdOff + 3600) - z.stdOff < z.T
    · rw [show loOff z (naive - (z.stdOff + 3600) + (z.stdOff + 3600) - z.stdOff)
          = z.stdOff + 3600 from if_pos hB]
      rw [if_pos (rfl : (z.stdOff + 3600 : Int) = z.stdOff + 3600)]
      rw [if_pos (by omega : naive - z.stdOff - 3600 < z.T),
        if_neg (by omega : ¬ z.T ≤ naive - z.stdOff)]
      omega
    · rw [show loOff z (naive - (z.stdOff + 3600) + (z.stdOff + 3600) - z.stdOff)
          = z.stdOff from if_neg hB]
      rw [if_neg (by omega : ¬ (z.stdOff + 3600 : Int) = z.stdOff)]
      rw [show (decide ((z.stdOff + 3600 : Int) > z.stdOff)) = true from by simp]
      cases fold
      · simp only [Bool.xor_false, if_true, ite_true]
        rw [if_pos (by omega : naive - z.stdOff - 3600 < z.T),
          if_pos (by omega : z.T ≤ naive - z.stdOff)]
        simp only [Bool.false_eq_true, if_false, ite_false]
        omega
      · simp only [Bool.xor_true, Bool.not_true, Bool.false_eq_true, if_false, ite_false]
        rw [if_pos (by omega : naive - z.stdOff - 3600 < z.T),
          if_pos (by omega : z.T ≤ naive - z.stdOff)]
        simp only [if_true, ite_true]
        omega
  · have hsecs : mktimeAuto z naive = naive - z.stdOff := if_neg hA
    unfold SystemTZ_mktime
    rw [hsecs]
    dsimp only
    rw [show loOff z (naive - z.stdOff) = z.stdOff from if_neg (by omega)]
    rw [show loIsDst z (naive - z.stdOff) = false from by simp [loIsDst]; omega]
    simp only [Bool.not_false, if_true, ite_true, mktimeFlag]
    rw [if_neg (by omega : ¬ naive - z.stdOff + z.stdOff - (z.stdOff + 3600) = naive - z.stdOff)]
    rw [show loOff z (naive - z.stdOff + z.stdOff - (z.stdOff + 3600)) = z.stdOff
        from if_neg (by omega)]
    rw [if_pos (rfl : (z.stdOff : Int) = z.stdOff)]
    rw [if_neg (by omega : ¬ naive - z.stdOff - 3600 < z.T)]

/-- C4: for every fall-back zone and every instant, converting to local
fields plus fold with `SystemTZ.fromutc` and back with `SystemTZ._mktime`
reproduces the instant exactly; inside the one-hour fall-back window the
fold flag is 1, the instant one hour earlier renders to the same local
fields with fold 0, and the fold=0 / fold=1 readings of those fields map
back to the two distinct UTC instants exactly one hour apart. -/
theorem tz_roundtrip :
    (∀ (z : FBZone) (s : Int),
        SystemTZ_mktime z (fromutc z s).1 (fromutc z s).2 = s)
    ∧ (∀ (z : FBZone) (s : Int), z.T ≤ s → s < z.T + 3600 →
        (fromutc z s).2 = true
        ∧ fromutc z (s - 3600) = ((fromutc z s).1, false)
        ∧ SystemTZ_mktime z (fromutc z s).1 false = s - 3600
        ∧ SystemTZ_mktime z (fromutc z s).1 true = s) := by
  have hwin : ∀ (z : FBZone) (s : Int), z.T ≤ s → s < z.T + 3600 →
      (fromutc z s).2 = true ∧ (fromutc z s).1 = s + z.stdOff := by
    intro z s h1 h2
    rw [fromutc_eq]
    constructor
    · simp only [decide_eq_true_eq]
      omega
    · rw [show loOff z s = z.stdOff from if_neg (by omega)]
  constructor
  · intro z s
    rw [fromutc_eq]
    dsimp only
    rw [SystemTZ_mktime_eq]
    by_cases h : s < z.T
    · rw [show loOff z s = z.stdOff + 3600 from if_pos h]
      by_cases h2 : s + 3600 < z.T
      · rw [if_pos (by omega), if_neg (by omega)]
        omega
      · rw [if_pos (by omega), if_pos (by omega)]
        rw [show (decide (z.T ≤ s ∧ s < z.T + 3600)) = false from by
          simp only [decide_eq_false_iff_not]; omega]
        simp only [Bool.false_eq_true, if_false, ite_false]
        omega
    · rw [show loOff z s = z.stdOff from if_neg h]
      by_cases h2 : s < z.T + 3600
      · rw [if_pos (by omega), if_pos (by omega)]
        rw [show (decide (z.T ≤ s ∧ s < z.T + 3600)) = true from by
          simp only [decide_eq_true_eq]; omega]
        simp only [if_true, ite_true]
        omega
      · rw [if_neg (by omega)]
        omega
  · intro z s h1 h2
    obtain ⟨hf2, hf1⟩ := hwin z s h1 h2
    refine ⟨hf2, ?_, ?_, ?_⟩
    · rw [fromutc_eq, hf1]
      rw [show loOff z (s - 3600) = z.stdOff + 3600 from if_pos (by omega)]
      rw [show (decide (z.T ≤ s - 3600 ∧ s - 3600 < z.T + 3600)) = false from by
        simp only [decide_eq_false_iff_not]; omega]
      refine congrArg (fun x => (x, false)) ?_
      omega
    · rw [hf1, SystemTZ_mktime_eq]
      rw [if_pos (by omega), if_pos (by omega)]
      simp only [Bool.false_eq_true, if_false, ite_false]
      omega
    · rw [hf1, SystemTZ_mktime_eq]
      rw [if_pos (by omega), if_pos (by omega)]
      simp only [if_true, ite_true]
      omega

/-- Witness for C4 at `T = 1000000`, `stdOff = 3600`, `s = 1000000` (the
first second of the fall-back window). -/
theorem tz_roundtrip_witness :
    SystemTZ_mktime ⟨1000000, 3600⟩
        (fromutc ⟨1000000, 3600⟩ 1000000).1 (fromutc ⟨1000000, 3600⟩ 1000000).2 = 1000000
    ∧ (fromutc ⟨1000000, 3600⟩ 1000000).2 = true
    ∧ SystemTZ_mktime ⟨1000000, 3600⟩ (fromutc ⟨1000000, 3600⟩ 1000000).1 false = 996400
    ∧ SystemTZ_mktime ⟨1000000, 3600⟩ (fromutc ⟨1000000, 3600⟩ 1000000).1 true = 1000000 := by
  obtain ⟨h1, h2, h3, h4⟩ := tz_roundtrip.2 ⟨1000000, 3600⟩ 1000000 (by decide) (by decide)
  exact ⟨tz_roundtrip.1 ⟨1000000, 3600⟩ 1000000, h1, h3, h4⟩


/-- For base64 indices the url-safe alphabet avoids every character the
CSV dialect treats specially. -/
theorem b64char_csv_safe (n : Nat) (h : n < 64) :
    b64char n ≠ ',' ∧ b64char n ≠ '"' ∧ b64char n ≠ '\n' ∧ b64char n ≠ '\r' := by
  interval_cases n <;> decide

theorem mem_b64urlEncode (bs : List Nat) (hb : ∀ b ∈ bs, b < 256) (c : Char)
    (hc : c ∈ b64urlEncode bs) : c = '=' ∨ ∃ n, n < 64 ∧ c = b64char n := by
  induction bs using b64urlEncode.induct with
  | case1 => cases hc
  | case2 b1 =>
    have h1 : b1 < 256 := hb b1 (List.mem_cons_self _ _)
    simp only [b64urlEncode, List.mem_cons, List.mem_singleton] at hc
    rcases hc with rfl | rfl | rfl | rfl | h
    · exact Or.inr ⟨b1 / 4, by omega, rfl⟩
    · exact Or.inr ⟨b1 % 4 * 16, by omega, rfl⟩
    · exact Or.inl rfl
    · exact Or.inl rfl
    · cases h
  | case3 b1 b2 =>
    have h1 : b1 < 256 := hb b1 (by simp)
    have h2 : b2 < 256 := hb b2 (by simp)
    simp only [b64urlEncode, List.mem_cons, List.mem_singleton] at hc
    rcases hc with rfl | rfl | rfl | rfl | h
    · exact Or.inr ⟨b1 / 4, by omega, rfl⟩
    · exact Or.inr ⟨b1 % 4 * 16 + b2 / 16, by omega, rfl⟩
    · exact Or.inr ⟨b2 % 16 * 4, by omega, rfl⟩
    · exact Or.inl rfl
    · cases h
  | case4 b1 b2 b3 rest ih =>
    have h1 : b1 < 256 := hb b1 (by simp)
    have h2 : b2 < 256 := hb b2 (by simp)
    have h3 : b3 < 256 := hb b3 (by simp)
    have hrest : ∀ b ∈ rest, b < 256 := fun b hbr => hb b (by simp [hbr])
    simp only [b64urlEncode, List.cons_append, List.nil_append, List.mem_cons] at hc
    rcases hc with rfl | rfl | rfl | rfl | h
    · exact Or.inr ⟨b1 / 4, by omega, rfl⟩
    · exact Or.inr ⟨b1 % 4 * 16 + b2 / 16, by omega, rfl⟩
    · exact Or.inr ⟨b2 % 16 * 4 + b3 / 64, by omega, rfl⟩
    · exact Or.inr ⟨b3 % 64, by omega, rfl⟩
    · exact ih hrest h

theorem mem_rstripChar (x : Char) (s : Str) (c : Char) (h : c ∈ rstripChar x s) : c ∈ s := by
  unfold rstripChar at h
  rw [List.mem_reverse] at h
  have := List.dropWhile_sublist (l := s.reverse) (p := fun y => y = x)
  exact List.mem_reverse.mp (this.mem h)

theorem head?_dropWhile {α : Type} (p : α → Bool) (l : List α) (a : α)
    (h : (l.dropWhile p).head? = some a) : p a = false := by
  induction l with
  | nil => cases h
  | cons x xs ih =>
    rw [List.dropWhile_cons] at h
    split at h
    · exact ih h
    · rename_i hx
      rw [List.head?_cons, Option.some.injEq] at h
      subst h
      simpa using hx

theorem getLast?_rstripChar (x : Char) (s : Str) (a : Char)
    (h : (rstripChar x s).getLast? = some a) : a ≠ x := by
  unfold rstripChar at h
  rw [List.getLast?_reverse] at h
  have := head?_dropWhile _ _ _ h
  simpa using this

theorem csvField_eq_self (s : Str)
    (h : ∀ c ∈ s, c ≠ ',' ∧ c ≠ '"' ∧ c ≠ '\n' ∧ c ≠ '\r') : csvField s = s := by
  have hq : csvNeedsQuote s = false := by
    unfold csvNeedsQuote
    rw [List.any_eq_false]
    intro c hc
    have := h c hc
    simp only [decide_eq_true_eq]
    push_neg
    exact ⟨this.1, this.2.1, this.2.2.1, this.2.2.2⟩
  unfold csvField
  rw [hq]
  simp

theorem csvRow_newline (fields : List Str) : (csvRow fields).getLast? = some '\n' := by
  unfold csvRow
  exact List.getLast?_concat _

theorem natDigits_csv_safe (n : Nat) :
    ∀ c ∈ natDigits n, c ≠ ',' ∧ c ≠ '"' ∧ c ≠ '\n' ∧ c ≠ '\r' := by
  intro c hc
  have hd := mem_natDigitsAux_digit (n + 1) n c hc
  refine ⟨?_, ?_, ?_, ?_⟩ <;> (intro h; subst h; exact absurd hd (by decide))

theorem digestField_csv_safe (e : RecEntry) (hb : ∀ b ∈ e.digest, b < 256) :
    ∀ c ∈ digestField e, c ≠ ',' ∧ c ≠ '"' ∧ c ≠ '\n' ∧ c ≠ '\r' := by
  intro c hc
  unfold digestField at hc
  rcases List.mem_append.mp hc with h | h
  · have hall : ∀ c ∈ str "sha256=", c ≠ ',' ∧ c ≠ '"' ∧ c ≠ '\n' ∧ c ≠ '\r' := by decide
    exact hall c h
  · have hcc := mem_rstripChar _ _ _ h
    rcases mem_b64urlEncode _ hb _ hcc with rfl | ⟨n, hn, rfl⟩
    · decide
    · exact b64char_csv_safe n hn

theorem csvRow3_eq (a b c : Str)
    (ha : ∀ x ∈ a, x ≠ ',' ∧ x ≠ '"' ∧ x ≠ '\n' ∧ x ≠ '\r')
    (hb : ∀ x ∈ b, x ≠ ',' ∧ x ≠ '"' ∧ x ≠ '\n' ∧ x ≠ '\r')
    (hc : ∀ x ∈ c, x ≠ ',' ∧ x ≠ '"' ∧ x ≠ '\n' ∧ x ≠ '\r') :
    csvRow [a, b, c] = a ++ [','] ++ b ++ [','] ++ c ++ ['\n'] := by
  unfold csvRow
  rw [List.map_cons, List.map_cons, List.map_cons, List.map_nil,
    csvField_eq_self a ha, csvField_eq_self b hb, csvField_eq_self c hc]
  simp [List.intercalate]

/-- C9: in the RECORD manifest written by `close()`, the final row is the
sentinel naming RECORD's own archive path with empty digest and size
fields; every preceding row is an archived file's path, the field
`sha256=<base64url digest, padding stripped>`, and its byte size,
comma-delimited; no preceding row has an empty digest field (it always
starts `sha256=` and never ends in `=`), and every row is
newline-terminated. -/
theorem record_manifest (pfx : Str) (entries : List RecEntry)
    (hpfx : ∀ c ∈ pfx, c ≠ ',' ∧ c ≠ '"' ∧ c ≠ '\n' ∧ c ≠ '\r')
    (hent : ∀ e ∈ entries,
        (∀ c ∈ e.path, c ≠ ',' ∧ c ≠ '"' ∧ c ≠ '\n' ∧ c ≠ '\r')
        ∧ ∀ b ∈ e.digest, b < 256) :
    recordFile pfx entries = (recordRows pfx entries).flatten
    ∧ (recordRows pfx entries).getLast? = some ((pfx ++ str "/RECORD") ++ [',', ',', '\n'])
    ∧ (recordRows pfx entries).dropLast
        = entries.map (fun e =>
            e.path ++ [','] ++ (str "sha256=" ++ b64urlNoPad e.digest) ++ [',']
              ++ natDigits e.size ++ ['\n'])
    ∧ (∀ e ∈ entries, digestField e ≠ []
        ∧ ∀ a, (b64urlNoPad e.digest).getLast? = some a → a ≠ '=')
    ∧ ∀ r ∈ recordRows pfx entries, r.getLast? = some '\n' := by
  have hrec : ∀ c ∈ pfx ++ str "/RECORD", c ≠ ',' ∧ c ≠ '"' ∧ c ≠ '\n' ∧ c ≠ '\r' := by
    intro c hc
    rcases List.mem_append.mp hc with h | h
    · exact hpfx c h
    · have hall : ∀ c ∈ str "/RECORD", c ≠ ',' ∧ c ≠ '"' ∧ c ≠ '\n' ∧ c ≠ '\r' := by decide
      exact hall c h
  have hsent : csvRow [pfx ++ str "/RECORD", [], []]
      = (pfx ++ str "/RECORD") ++ [',', ',', '\n'] := by
    have h := csvRow3_eq (pfx ++ str "/RECORD") [] [] hrec (by simp) (by simp)
    simpa using h
  refine ⟨rfl, ?_, ?_, ?_, ?_⟩
  · unfold recordRows
    rw [List.getLast?_concat, hsent]
  · unfold recordRows
    rw [List.dropLast_concat]
    refine List.map_congr_left ?_
    intro e he
    have h := csvRow3_eq e.path (digestField e) (natDigits e.size)
      (hent e he).1 (digestField_csv_safe e (hent e he).2) (natDigits_csv_safe e.size)
    rw [h]
    unfold digestField
    simp [List.append_assoc]
  · intro e he
    constructor
    · simp [digestField, str]
    · intro a ha
      exact getLast?_rstripChar _ _ _ ha
  · intro r hr
    unfold recordRows at hr
    rcases List.mem_append.mp hr with h | h
    · obtain ⟨e, _, rfl⟩ := List.mem_map.mp h
      exact csvRow_newline _
    · rcases List.mem_singleton.mp h with rfl
      exact csvRow_newline _

/-- Witness for C9 with one archived file and digest bytes `[1, 2, 3]`. -/
theorem record_manifest_witness :
    (recordRows (str "d.dist-info") [⟨str "pkg/a.py", [1, 2, 3], 42⟩]).getLast?
        = some (str "d.dist-info/RECORD,,\n")
    ∧ (recordRows (str "d.dist-info") [⟨str "pkg/a.py", [1, 2, 3], 42⟩]).dropLast
        = [str "pkg/a.py,sha256=AQID,42\n"] := by
  have h := record_manifest (str "d.dist-info") [⟨str "pkg/a.py", [1, 2, 3], 42⟩]
    (by decide) (by decide)
  refine ⟨?_, ?_⟩
  · rw [h.2.1]; decide
  · rw [h.2.2.1]; decide

end BuildBackend
